import Mathlib

/-!
Shallow embedding of src/main.py: a two-pass pipeline that ingests car
records from CSV, JSON-lines and simplified XML files, counts records
per car model during ingestion, buffers every record in a temporary
JSON-lines file, and then re-reads the buffer, keeping only records
whose model count reaches the threshold, formatting them as CSV lines.

Python dicts with string keys and string values become association
lists in insertion order; Python exceptions become `Except PyErr`
results; the `sleep` calls become a no-op acting only on a delay
parameter that is threaded through, exactly as `read_delay` is in the
source. Strings are sequences of Unicode code points (`List Char`
under `String`), matching Python `str`.
-/

/-- Python exceptions the script can raise, as embedded error values. -/
inductive PyErr where
  | keyError (key : String)
  | valueError (msg : String)
  | indexError
  | decodeError
  | stopIteration
  deriving DecidableEq, Repr

/-- Decidable equality of embedded results, so that concrete runs can be
checked by `decide`. -/
instance {e a : Type} [DecidableEq e] [DecidableEq a] : DecidableEq (Except e a) := fun x y =>
  match x, y with
  | .ok u, .ok v =>
    if h : u = v then isTrue (by rw [h]) else isFalse (by intro hc; cases hc; exact h rfl)
  | .error u, .error v =>
    if h : u = v then isTrue (by rw [h]) else isFalse (by intro hc; cases hc; exact h rfl)
  | .ok _, .error _ => isFalse (by intro hc; cases hc)
  | .error _, .ok _ => isFalse (by intro hc; cases hc)

/-- A car record: a Python dict from field names to string values, kept in
insertion order, as built and consumed by src/main.py. -/
abbrev CarRecord := List (String × String)

/-- Python dict assignment `d[k] = v`: replace in place when the key is
present, append otherwise. -/
def recordSet (r : CarRecord) (k v : String) : CarRecord :=
  match r with
  | [] => [(k, v)]
  | (k1, v1) :: rest => if k1 = k then (k, v) :: rest else (k1, v1) :: recordSet rest k v

/-- Python `d.get(k, dflt)`. -/
def recordGet (r : CarRecord) (k dflt : String) : String :=
  match r.find? (fun p => p.1 == k) with
  | some p => p.2
  | none => dflt

/-- Python `d.get(k)` as an optional lookup, used to state properties. -/
def recordFind (r : CarRecord) (k : String) : Option String :=
  (r.find? (fun p => p.1 == k)).map Prod.snd

/-- Python `d[k]`, raising `KeyError` when the key is missing. -/
def recordIndex (r : CarRecord) (k : String) : Except PyErr String :=
  match r.find? (fun p => p.1 == k) with
  | some p => .ok p.2
  | none => .error (.keyError k)

/-- Python `dict(zip(header, vals))`: pairs are truncated to the shorter
list and later duplicate keys overwrite earlier ones. -/
def dictOfZip (header vals : List String) : CarRecord :=
  (header.zip vals).foldl (fun r p => recordSet r p.1 p.2) []

/-- The model-frequency table `DataLoader.car_model_counts`: a Python dict
from model name to count, in insertion order. -/
abbrev Counts := List (String × Nat)

/-- Python `counts.get(k, d)` on the frequency table. -/
def countsGetD (c : Counts) (k : String) (d : Nat) : Nat :=
  match c.find? (fun p => p.1 == k) with
  | some p => p.2
  | none => d

/-- Python `counts[k]`, raising `KeyError` when the key is missing;
this is the lookup the filter pass performs (src/main.py line 125). -/
def countsIndex (c : Counts) (k : String) : Except PyErr Nat :=
  match c.find? (fun p => p.1 == k) with
  | some p => .ok p.2
  | none => .error (.keyError k)

/-- Membership of a key in the frequency table. -/
def countsHasKey (c : Counts) (k : String) : Bool :=
  (c.find? (fun p => p.1 == k)).isSome

/-- Python dict assignment on the frequency table. -/
def countsSet (c : Counts) (k : String) (n : Nat) : Counts :=
  match c with
  | [] => [(k, n)]
  | (k1, v1) :: rest => if k1 = k then (k, n) :: rest else (k1, v1) :: countsSet rest k n

/-- `DataLoader._count_car` (src/main.py lines 21-22):
`counts[car[m]] = counts.get(car[m], 0) + 1` with `m = car_model`;
raises `KeyError` when the record has no `car_model` key. -/
def count_car (counts : Counts) (car : CarRecord) : Except PyErr Counts :=
  match recordIndex car ("car_model") with
  | .error e => .error e
  | .ok m => .ok (countsSet counts m (countsGetD counts m 0 + 1))

/-- The whitespace characters Python `str.strip()` removes (ASCII range). -/
def isPySpace (c : Char) : Bool :=
  c = ' ' || c = '\t' || c = '\n' || c = '\r' || c = '\x0b' || c = '\x0c'

/-- Python `s.strip()` restricted to ASCII whitespace. -/
def pyStrip (s : String) : String :=
  String.mk (((s.toList.dropWhile isPySpace).reverse.dropWhile isPySpace).reverse)

/-- Split a character list on a single separator character, keeping empty
segments; Python `s.split(sep)` for a one-character separator. The result
is never the empty list. -/
def splitOnSep (sep : Char) : List Char -> List (List Char)
  | [] => [[]]
  | c :: rest =>
    if c = sep then [] :: splitOnSep sep rest
    else
      match splitOnSep sep rest with
      | [] => [[c]]
      | l :: ls => (c :: l) :: ls

/-- Python `s.split(sep)` for a one-character separator, on strings. -/
def pySplit (sep : Char) (s : String) : List String :=
  (splitOnSep sep s.toList).map String.mk

/-- Python `sep.join(xs)` for a one-character separator. -/
def pyJoin (sep : Char) (xs : List String) : String :=
  String.mk (List.intercalate [sep] (xs.map String.toList))

/-- Python `s.startswith(pre)`. -/
def pyStartsWith (s pre : String) : Bool :=
  pre.toList.isPrefixOf s.toList

/-- `time.sleep`, semantically a no-op: the delay affects only wall-clock
time, never program state. -/
def sleep (_delay : Nat) : Unit := ()

/-! ### The JSON codec used for the intermediate buffer

`json.dump(car, car_buffer)` with default options (`ensure_ascii=True`,
separators `", "` and `": "`) and `json.loads(line)` restricted to flat
objects with string values, which is the shape of every record this
program writes and the shape the spec assigns to records. -/

/-- Lowercase hexadecimal digit, as Python json emits in escapes. -/
def hexDigitChar (n : Nat) : Char :=
  if n < 10 then Char.ofNat (48 + n) else Char.ofNat (87 + n)

/-- Four-digit lowercase hexadecimal rendering of `n % 65536`. -/
def hex4 (n : Nat) : List Char :=
  [hexDigitChar (n / 4096 % 16), hexDigitChar (n / 256 % 16),
   hexDigitChar (n / 16 % 16), hexDigitChar (n % 16)]

/-- The escape `json.dump` applies to one character with `ensure_ascii=True`:
quote and backslash get two-character escapes, the common control characters
get their short escapes, other control characters and all non-ASCII
characters get `\uXXXX` escapes, with surrogate pairs above `0xFFFF`. -/
def escapeChar (c : Char) : List Char :=
  if c = '"' then ['\\', '"']
  else if c = '\\' then ['\\', '\\']
  else if c = '\n' then ['\\', 'n']
  else if c = '\r' then ['\\', 'r']
  else if c = '\t' then ['\\', 't']
  else if c.toNat = 8 then ['\\', 'b']
  else if c.toNat = 12 then ['\\', 'f']
  else if c.toNat < 32 then '\\' :: 'u' :: hex4 c.toNat
  else if c.toNat < 127 then [c]
  else if c.toNat < 65536 then '\\' :: 'u' :: hex4 c.toNat
  else
    ('\\' :: 'u' :: hex4 (55296 + (c.toNat - 65536) / 1024)) ++
    ('\\' :: 'u' :: hex4 (56320 + (c.toNat - 65536) % 1024))

/-- A JSON string literal for the given character content. -/
def encodeStringChars (cs : List Char) : List Char :=
  '"' :: ((cs.flatMap escapeChar) ++ ['"'])

/-- One `"key": "value"` member, with the default `": "` key separator. -/
def encodePairChars (p : String × String) : List Char :=
  encodeStringChars p.1.toList ++ (':' :: ' ' :: encodeStringChars p.2.toList)

/-- `json.dump` of one record: members joined by `", "` inside braces. -/
def encodeRecordChars (r : CarRecord) : List Char :=
  '\x7b' :: (List.intercalate [',', ' '] (r.map encodePairChars) ++ ['\x7d'])

/-- `json.dump(car, buffer)` as a string. -/
def encodeRecord (r : CarRecord) : String :=
  String.mk (encodeRecordChars r)

/-- Value of one hexadecimal digit, upper or lower case. -/
def hexVal (c : Char) : Option Nat :=
  if 48 ≤ c.toNat ∧ c.toNat ≤ 57 then some (c.toNat - 48)
  else if 97 ≤ c.toNat ∧ c.toNat ≤ 102 then some (c.toNat - 87)
  else if 65 ≤ c.toNat ∧ c.toNat ≤ 70 then some (c.toNat - 55)
  else none

/-- Value of a four-digit hexadecimal escape payload. -/
def hexVal4 (a b c d : Char) : Option Nat :=
  match hexVal a, hexVal b, hexVal c, hexVal d with
  | some x, some y, some z, some w => some (((x * 16 + y) * 16 + z) * 16 + w)
  | _, _, _, _ => none

/-- Prepend a decoded character to the pending string content. -/
def consFst (c : Char) (o : Option (List Char × List Char)) :
    Option (List Char × List Char) :=
  o.map (fun p => (c :: p.1, p.2))

/-- One escape sequence after a backslash, as `json.loads` reads it:
the short escapes, and `\uXXXX` with surrogate pairs recombined and
lone surrogates rejected. Returns the decoded character and the
remaining input. -/
def readEscUnit : List Char → Option (Char × List Char)
  | [] => none
  | e :: rest1 =>
    if e = '"' then some ('"', rest1)
    else if e = '\\' then some ('\\', rest1)
    else if e = '/' then some ('/', rest1)
    else if e = 'b' then some (Char.ofNat 8, rest1)
    else if e = 'f' then some (Char.ofNat 12, rest1)
    else if e = 'n' then some ('\n', rest1)
    else if e = 'r' then some ('\r', rest1)
    else if e = 't' then some ('\t', rest1)
    else if e = 'u' then
      match rest1 with
      | h1 :: h2 :: h3 :: h4 :: rest2 =>
        match hexVal4 h1 h2 h3 h4 with
        | none => none
        | some n =>
          if 55296 ≤ n ∧ n < 56320 then
            match rest2 with
            | '\\' :: 'u' :: g1 :: g2 :: g3 :: g4 :: rest3 =>
              match hexVal4 g1 g2 g3 g4 with
              | none => none
              | some m =>
                if 56320 ≤ m ∧ m < 57344 then
                  some (Char.ofNat (65536 + (n - 55296) * 1024 + (m - 56320)), rest3)
                else none
            | _ => none
          else if 56320 ≤ n ∧ n < 57344 then none
          else some (Char.ofNat n, rest2)
      | _ => none
    else none

/-- Body of a JSON string literal after the opening quote, as
`json.loads` reads it in strict mode: raw control characters are
rejected, escapes are decoded through `readEscUnit`. Every step
consumes at least one input character, so a fuel of the input length
plus one never runs out; the fuel only makes the recursion structural.
Returns the decoded content and the input remaining after the closing
quote. -/
def parseStringBody : Nat → List Char → Option (List Char × List Char)
  | 0, _ => none
  | _, [] => none
  | Nat.succ fuel, c :: rest =>
    if c = '"' then some ([], rest)
    else if c = '\\' then
      match readEscUnit rest with
      | none => none
      | some p => consFst p.1 (parseStringBody fuel p.2)
    else if c.toNat < 32 then none
    else consFst c (parseStringBody fuel rest)

/-- A complete JSON string literal starting at the opening quote. -/
def parseJString : List Char → Option (List Char × List Char)
  | [] => none
  | c :: rest => if c = '"' then parseStringBody (rest.length + 1) rest else none

/-- The whitespace `json.loads` skips between tokens. -/
def skipJsonWs (cs : List Char) : List Char :=
  cs.dropWhile (fun c => c = ' ' || c = '\t' || c = '\n' || c = '\r')

/-- The members of a non-empty JSON object, starting at the first key and
consuming through the closing brace; `fuel` bounds the recursion and any
input of length below the fuel is parsed fully. -/
def parseMembers : Nat → List Char → Option (List (String × String) × List Char)
  | 0, _ => none
  | Nat.succ fuel, cs =>
    match parseJString cs with
    | none => none
    | some (k, cs1) =>
      match skipJsonWs cs1 with
      | ':' :: cs3 =>
        match parseJString (skipJsonWs cs3) with
        | none => none
        | some (v, cs5) =>
          match skipJsonWs cs5 with
          | ',' :: cs7 =>
            match parseMembers fuel (skipJsonWs cs7) with
            | none => none
            | some (ps, rest) => some ((String.mk k, String.mk v) :: ps, rest)
          | '\x7d' :: cs7 => some ([(String.mk k, String.mk v)], cs7)
          | _ => none
      | _ => none

/-- Building a Python dict from parsed members: later duplicates win,
as in `json.loads`. -/
def fromPairs (ps : List (String × String)) : CarRecord :=
  ps.foldl (fun r p => recordSet r p.1 p.2) []

/-- `json.loads(line)` restricted to flat objects with string values (the
shape of every record of this program); any other JSON value is a decode
failure of the model. -/
def decodeRecordChars (cs : List Char) : Option CarRecord :=
  match skipJsonWs cs with
  | '\x7b' :: rest =>
    match skipJsonWs rest with
    | '\x7d' :: tail => if (skipJsonWs tail).isEmpty then some [] else none
    | rest2 =>
      match parseMembers (rest2.length + 1) rest2 with
      | none => none
      | some (ps, tail) => if (skipJsonWs tail).isEmpty then some (fromPairs ps) else none
  | _ => none

/-- `json.loads` on a string, restricted as above. -/
def decodeRecord (s : String) : Option CarRecord :=
  decodeRecordChars s.toList

/-! ### The three readers of `DataLoader`

Files are modelled as the list of lines Python iteration yields, with
each terminating newline already removed (every reader strips the line
before using it, so this costs no fidelity). Each reader threads the
frequency table through and returns the emitted records together with
the updated table; a raised exception aborts the whole iteration, as it
does in the script. -/

/-- Body loop of `DataLoader.read_csv` (src/main.py lines 28-35): strip,
split on commas, skip when the split result is the empty list (which
`split` never returns, so the guard is dead), zip against the header,
count, sleep, yield. -/
def csvBody (delay : Nat) (header : List String) :
    Counts → List String → Except PyErr (List CarRecord × Counts)
  | counts, [] => .ok ([], counts)
  | counts, l :: rest =>
    let parts := pySplit ',' (pyStrip l)
    if parts.isEmpty then csvBody delay header counts rest
    else
      let car := dictOfZip header parts
      match count_car counts car with
      | .error e => .error e
      | .ok counts1 =>
        let _ := sleep delay
        match csvBody delay header counts1 rest with
        | .error e => .error e
        | .ok (cars, counts2) => .ok (car :: cars, counts2)

/-- `DataLoader.read_csv` (src/main.py lines 24-35): the first line is the
comma-split header; an empty file raises (the `next` call finds no line). -/
def read_csv (delay : Nat) (counts : Counts) (lines : List String) :
    Except PyErr (List CarRecord × Counts) :=
  match lines with
  | [] => .error .stopIteration
  | headerLine :: body =>
    csvBody delay (pySplit ',' (pyStrip headerLine)) counts body

/-- `DataLoader.read_json` (src/main.py lines 37-46): strip, skip empty
lines, `json.loads` each remaining line into a record, count, sleep,
yield. A line that is not a flat string-valued object is a decode
failure of the model. -/
def read_json (delay : Nat) :
    Counts → List String → Except PyErr (List CarRecord × Counts)
  | counts, [] => .ok ([], counts)
  | counts, l :: rest =>
    let line := pyStrip l
    if line.toList.isEmpty then read_json delay counts rest
    else
      match decodeRecord line with
      | none => .error .decodeError
      | some car =>
        match count_car counts car with
        | .error e => .error e
        | .ok counts1 =>
          let _ := sleep delay
          match read_json delay counts1 rest with
          | .error e => .error e
          | .ok (cars, counts2) => .ok (car :: cars, counts2)

/-- `DataLoader._extract_xml_value` (src/main.py lines 48-49):
`line.split(">")[1].split("<")[0]`, raising `IndexError` when the line
has no `>`. -/
def extract_xml_value (line : String) : Except PyErr String :=
  match pySplit '>' line with
  | [] => .error .indexError
  | [_] => .error .indexError
  | _ :: second :: _ => .ok ((pySplit '<' second).headD (""))

/-- Loop of `DataLoader.read_xml` (src/main.py lines 51-68): accumulate
fields of the current row by tag prefix; a line starting with `</row`
counts and emits the accumulated record and resets the accumulator.
A leftover accumulator at end of file is discarded, as in the source. -/
def xmlLoop (delay : Nat) :
    Counts → CarRecord → List String → Except PyErr (List CarRecord × Counts)
  | counts, _, [] => .ok ([], counts)
  | counts, car, l :: rest =>
    let line := pyStrip l
    if pyStartsWith line ("<car_model") then
      match extract_xml_value line with
      | .error e => .error e
      | .ok v => xmlLoop delay counts (recordSet car ("car_model") v) rest
    else if pyStartsWith line ("<year") then
      match extract_xml_value line with
      | .error e => .error e
      | .ok v => xmlLoop delay counts (recordSet car ("year_of_manufacture") v) rest
    else if pyStartsWith line ("<price") then
      match extract_xml_value line with
      | .error e => .error e
      | .ok v => xmlLoop delay counts (recordSet car ("price") v) rest
    else if pyStartsWith line ("<fuel") then
      match extract_xml_value line with
      | .error e => .error e
      | .ok v => xmlLoop delay counts (recordSet car ("fuel") v) rest
    else if pyStartsWith line ("</row") then
      match count_car counts car with
      | .error e => .error e
      | .ok counts1 =>
        let _ := sleep delay
        match xmlLoop delay counts1 [] rest with
        | .error e => .error e
        | .ok (cars, counts2) => .ok (car :: cars, counts2)
    else xmlLoop delay counts car rest

/-- `DataLoader.read_xml` (src/main.py lines 51-68). -/
def read_xml (delay : Nat) (counts : Counts) (lines : List String) :
    Except PyErr (List CarRecord × Counts) :=
  xmlLoop delay counts [] lines

/-! ### Formatting and the filter pass -/

/-- The fixed output header (src/main.py line 115). -/
def outHeader : List String :=
  [("car_model"), ("year_of_manufacture"), ("price"), ("fuel")]

/-- The header line written to the output file (src/main.py line 116). -/
def headerLine : String :=
  pyJoin ',' outHeader

/-- Numeric value of a digit string. -/
def digitsVal (ds : List Char) : Nat :=
  ds.foldl (fun a c => a * 10 + (c.toNat - 48)) 0

/-- Round the non-negative rational `num / den` to the nearest integer,
ties to even. -/
def rheNat (num den : Nat) : Nat :=
  let q := num / den
  let r := num % den
  if 2 * r < den then q
  else if den < 2 * r then q + 1
  else if q % 2 = 0 then q else q + 1

/-- Number of binary digits of `n`; the fuel only makes the recursion
structural and every caller passes fuel above the bit length. -/
def bitsAux : Nat → Nat → Nat
  | 0, _ => 0
  | Nat.succ f, n => if n = 0 then 0 else bitsAux f (n / 2) + 1

/-- A Python float, an IEEE binary64 double: a finite value
`(-1)^neg * m * 2^e`, a signed infinity, or nan (whose sign Python
never prints). -/
inductive PyFloat where
  | finite (neg : Bool) (m : Nat) (e : Int)
  | inf (neg : Bool)
  | nan
  deriving DecidableEq, Repr

/-- Whether `2^j ≤ N / D` for an integer `j` and positive `N`, `D`. -/
def lePow2 (j : Int) (N D : Nat) : Bool :=
  if 0 ≤ j then D * 2 ^ j.toNat ≤ N else D ≤ N * 2 ^ (-j).toNat

/-- Round the exact positive rational `N / D` to the binary64 grid,
round to nearest with ties to even, overflowing to infinity and
flushing to zero or subnormals below the normal range, as the C
conversion behind Python `float` does. `fuel` must exceed the bit
lengths of `N` and `D`; the caller guarantees it. -/
def roundToDouble (neg : Bool) (N D : Nat) (fuel : Nat) : PyFloat :=
  if N = 0 then .finite neg 0 0
  else
    let a := bitsAux fuel N - 1
    let b := bitsAux fuel D - 1
    let j : Int := (a : Int) - (b : Int)
    let k : Int := if lePow2 j N D then j else j - 1
    let e : Int := max (k - 52) (-1074)
    let m :=
      if 0 ≤ e then rheNat N (D * 2 ^ e.toNat)
      else rheNat (N * 2 ^ (-e).toNat) D
    let m1 := if 2 ^ 53 ≤ m then m / 2 else m
    let e1 : Int := if 2 ^ 53 ≤ m then e + 1 else e
    if 0 ≤ e1 ∧ 2 ^ 1024 ≤ m1 * 2 ^ e1.toNat then .inf neg
    else .finite neg m1 e1

/-- The double nearest to the decimal `(-1)^neg * digits * 10^scale`.
Exponents far outside the double range are settled directly (such a
value is beyond 10^309 or below 10^-324, hence a definite overflow to
infinity or underflow to zero); in the remaining range the scaled
numerator and denominator have fewer than `4 * (digits + 350)` binary
digits, so the fuel passed to the bit-length scan is ample. -/
def decToDouble (neg : Bool) (digits : List Char) (scale : Int) : PyFloat :=
  let mant := digitsVal digits
  if mant = 0 then .finite neg 0 0
  else if 309 ≤ scale then .inf neg
  else if scale + (digits.length : Int) ≤ -324 then .finite neg 0 0
  else
    let fuel := 4 * (digits.length + 350) + 64
    if 0 ≤ scale then roundToDouble neg (mant * 10 ^ scale.toNat) 1 fuel
    else roundToDouble neg mant (10 ^ (-scale).toNat) fuel

/-- The tail of a Python float digit part after its first digit: more
digits with single underscores allowed between digits; an underscore
not enclosed by digits is an error. Returns the digits and the rest. -/
def digitsLoop : List Char → Option (List Char × List Char)
  | [] => some ([], [])
  | '_' :: rest =>
    match rest with
    | [] => none
    | d :: rest2 =>
      if d.isDigit then (digitsLoop rest2).map (fun p => (d :: p.1, p.2)) else none
  | c :: rest =>
    if c.isDigit then (digitsLoop rest).map (fun p => (c :: p.1, p.2))
    else some ([], c :: rest)

/-- A Python float digit part: one digit, then `digitsLoop`. -/
def digitPart (cs : List Char) : Option (List Char × List Char) :=
  match cs with
  | [] => none
  | c :: rest =>
    if c.isDigit then (digitsLoop rest).map (fun p => (c :: p.1, p.2)) else none

/-- Python `float(s)`: optional surrounding whitespace and sign, then
either an infinity or nan word (case-insensitive) or a decimal literal
with optional fraction and exponent, underscores allowed between
digits; the result is the nearest binary64 double. The model covers
the ASCII digits and whitespace Python shares with it. -/
def pyFloat (s : String) : Option PyFloat :=
  let cs0 := (pyStrip s).toList
  let (neg, cs) :=
    match cs0 with
    | '-' :: rest => (true, rest)
    | '+' :: rest => (false, rest)
    | _ => (false, cs0)
  let low := cs.map Char.toLower
  if low = ['i', 'n', 'f'] || low = ['i', 'n', 'f', 'i', 'n', 'i', 't', 'y'] then
    some (.inf neg)
  else if low = ['n', 'a', 'n'] then some .nan
  else
    let headDig := match cs with | c :: _ => c.isDigit | [] => false
    let intRes : Option (List Char × List Char) :=
      if headDig then digitPart cs else some ([], cs)
    match intRes with
    | none => none
    | some (intPart, cs1) =>
      let fracRes : Option (List Char × List Char) :=
        match cs1 with
        | '.' :: rest =>
          let fh := match rest with | c :: _ => c.isDigit | [] => false
          if fh then digitPart rest else some ([], rest)
        | _ => some ([], cs1)
      match fracRes with
      | none => none
      | some (fracPart, cs2) =>
        if intPart.isEmpty && fracPart.isEmpty then none
        else
          let digits := intPart ++ fracPart
          let scale0 : Int := -(fracPart.length : Int)
          match cs2 with
          | [] => some (decToDouble neg digits scale0)
          | e :: rest =>
            if e = 'e' || e = 'E' then
              let (eneg, rest1) :=
                match rest with
                | '-' :: r => (true, r)
                | '+' :: r => (false, r)
                | _ => (false, rest)
              let eh := match rest1 with | c :: _ => c.isDigit | [] => false
              if eh then
                match digitPart rest1 with
                | none => none
                | some (eds, rest2) =>
                  if rest2.isEmpty then
                    let ev : Int :=
                      if eneg then -(digitsVal eds : Int) else (digitsVal eds : Int)
                    some (decToDouble neg digits (scale0 + ev))
                  else none
              else none
            else none

/-- Two-digit zero-padded rendering of a value below 100. -/
def pad2 (n : Nat) : String :=
  if n < 10 then ("0") ++ toString n else toString n

/-- Python `.2f` formatting of a float: a finite double is rendered
from its exact value rounded to hundredths with ties to even, with
exactly two digits after the point and a minus sign for negative
values (also negative zero); infinities render as inf with the sign
and nan renders as nan, never with two decimals. -/
def formatF2 : PyFloat → String
  | .nan => ("nan")
  | .inf neg => (if neg then ("-") else ("")) ++ ("inf")
  | .finite neg m e =>
    let n := if 0 ≤ e then m * 2 ^ e.toNat * 100 else rheNat (m * 100) (2 ^ (-e).toNat)
    (if neg then ("-") else ("")) ++ toString (n / 100) ++ (".") ++ pad2 (n % 100)

/-- Python `str.title()` restricted to ASCII: a letter directly after a
letter is lowercased, a letter after a non-letter (or at the start) is
uppercased, every other character is kept. -/
def pyTitleAux : Bool → List Char → List Char
  | _, [] => []
  | prevAlpha, c :: rest =>
    if c.isAlpha then
      (if prevAlpha then c.toLower else c.toUpper) :: pyTitleAux true rest
    else
      c :: pyTitleAux false rest

/-- Python `car["car_model"].title()` on ASCII strings. -/
def pyTitle (s : String) : String :=
  String.mk (pyTitleAux false s.toList)

/-- `format_car` (src/main.py lines 74-79): parse the price as a float
(`KeyError` when absent, `ValueError` when malformed), overwrite it with
its two-decimal rendering, overwrite the model with its title-cased form
(`KeyError` when absent), and join the four header fields with commas,
an absent field rendering as the empty string. Returns the line and the
mutated record. -/
def format_car (car : CarRecord) (header : List String) : Except PyErr (String × CarRecord) :=
  match recordIndex car ("price") with
  | .error e => .error e
  | .ok priceStr =>
    match pyFloat priceStr with
    | none => .error (.valueError priceStr)
    | some q =>
      let car1 := recordSet car ("price") (formatF2 q)
      match recordIndex car1 ("car_model") with
      | .error e => .error e
      | .ok m =>
        let car2 := recordSet car1 ("car_model") (pyTitle m)
        .ok (pyJoin ',' (header.map (fun h => recordGet car2 h (""))), car2)

/-- The retention threshold hard-coded at src/main.py line 125; the
configuration default the spec names. -/
def threshold : Nat := 3

/-- The filter-and-write loop (src/main.py lines 123-132): for each
buffered record, look the model count up by direct indexing and keep the
record when the count reaches the threshold, formatting it into one
output line; the per-record sleep only consumes the delay. -/
def writeCars (delay : Nat) (counts : Counts) :
    List CarRecord → Except PyErr (List String)
  | [] => .ok []
  | car :: rest =>
    match recordIndex car ("car_model") with
    | .error e => .error e
    | .ok m =>
      match countsIndex counts m with
      | .error e => .error e
      | .ok cnt =>
        if threshold ≤ cnt then
          match format_car car outHeader with
          | .error e => .error e
          | .ok (line, _) =>
            let _ := sleep delay
            match writeCars delay counts rest with
            | .error e => .error e
            | .ok lines => .ok (line :: lines)
        else writeCars delay counts rest

/-! ### The intermediate buffer and the pipeline driver -/

/-- The buffer content produced by the ingestion loop (src/main.py lines
108-110): each record as one `json.dump` line followed by a newline. -/
def writeBufferChars (rs : List CarRecord) : List Char :=
  (rs.map (fun r => encodeRecordChars r ++ ['\n'])).flatten

/-- The buffer file content as a string. -/
def writeBuffer (rs : List CarRecord) : String :=
  String.mk (writeBufferChars rs)

/-- Split on newline characters, keeping interior empty segments; the
segments of `a\nb\n` are `a`, `b` and a final empty segment. -/
def splitOnNl : List Char → List (List Char)
  | [] => [[]]
  | c :: rest =>
    if c = '\n' then [] :: splitOnNl rest
    else
      match splitOnNl rest with
      | [] => [[c]]
      | l :: ls => (c :: l) :: ls

/-- Python file iteration: the lines of the content, with a trailing
empty segment after a final newline yielding no line. -/
def pyFileLines (cs : List Char) : List (List Char) :=
  let ls := splitOnNl cs
  if ls.getLast? = some [] then ls.dropLast else ls

/-- Re-reading the rewound buffer (src/main.py lines 112 and 120-122):
each line through `json.loads`. -/
def readBuffer (s : String) : Except PyErr (List CarRecord) :=
  (pyFileLines s.toList).mapM (fun l =>
    match decodeRecordChars l with
    | some r => Except.ok r
    | none => Except.error PyErr.decodeError)

/-- Ingestion over a list of files of one format. -/
def ingestFiles (reader : Nat → Counts → List String → Except PyErr (List CarRecord × Counts))
    (delay : Nat) : Counts → List (List String) → Except PyErr (List CarRecord × Counts)
  | counts, [] => .ok ([], counts)
  | counts, f :: fs =>
    match reader delay counts f with
    | .error e => .error e
    | .ok (rs, counts1) =>
      match ingestFiles reader delay counts1 fs with
      | .error e => .error e
      | .ok (rss, counts2) => .ok (rs ++ rss, counts2)

/-- The ingestion pass (src/main.py lines 95-110): one loader shared by
every file, CSV files first, then JSON, then XML, exactly the
`itertools.chain` order; returns every emitted record in emission order
together with the final frequency table. -/
def runIngestion (delay : Nat) (csvs jsons xmls : List (List String)) :
    Except PyErr (List CarRecord × Counts) :=
  match ingestFiles read_csv delay [] csvs with
  | .error e => .error e
  | .ok (r1, c1) =>
    match ingestFiles read_json delay c1 jsons with
    | .error e => .error e
    | .ok (r2, c2) =>
      match ingestFiles read_xml delay c2 xmls with
      | .error e => .error e
      | .ok (r3, c3) => .ok (r1 ++ r2 ++ r3, c3)

/-- The whole run of src/main.py lines 95-132: ingest, buffer, rewind,
filter and format; the result is the output file content as its list of
lines, the fixed header first. -/
def runPipeline (delay : Nat) (csvs jsons xmls : List (List String)) :
    Except PyErr (List String) :=
  match runIngestion delay csvs jsons xmls with
  | .error e => .error e
  | .ok (records, counts) =>
    match readBuffer (writeBuffer records) with
    | .error e => .error e
    | .ok recs =>
      match writeCars delay counts recs with
      | .error e => .error e
      | .ok outLines => .ok (headerLine :: outLines)

/-! ### Reference definitions used to state the claims -/

/-- Modelled from the spec wording of the title-case rule, for comparison
with the source behaviour: the first letter of each whitespace-separated
word is capitalized and the rest of each word is lowercased. -/
def titleByWhitespaceAux : Bool → List Char → List Char
  | _, [] => []
  | atStart, c :: rest =>
    if isPySpace c then c :: titleByWhitespaceAux true rest
    else (if atStart then c.toUpper else c.toLower) :: titleByWhitespaceAux false rest

/-- The whitespace-word title casing the spec describes. -/
def titleByWhitespace (s : String) : String :=
  String.mk (titleByWhitespaceAux true s.toList)

/-- The word rule Python `str.title()` actually follows on ASCII text: a
letter whose preceding character is not a letter (or that starts the
string) is uppercased, a letter after a letter is lowercased, and every
other character passes through, so any non-letter separates words. -/
def titleByLetterRunsAux : Option Char → List Char → List Char
  | _, [] => []
  | prev, c :: rest =>
    (if c.isAlpha then
      (if (prev.map Char.isAlpha).getD false then c.toLower else c.toUpper)
     else c) :: titleByLetterRunsAux (some c) rest

/-- Title casing by maximal letter runs. -/
def titleByLetterRuns (s : String) : String :=
  String.mk (titleByLetterRunsAux none s.toList)

/-- The retention predicate of the filter pass, stated over the optional
model lookup: retained exactly when the model is present and its count
reaches the threshold. -/
def retainedB (counts : Counts) (r : CarRecord) : Bool :=
  match recordFind r ("car_model") with
  | some m => threshold ≤ countsGetD counts m 0
  | none => false

/-- The output line a record produces when its formatting succeeds. -/
def fmtLine (r : CarRecord) : String :=
  match format_car r outHeader with
  | .ok p => p.1
  | .error _ => ("")

/-! ### Dictionary lemmas -/

theorem recordFind_set_same (r : CarRecord) (k v : String) :
    recordFind (recordSet r k v) k = some v := by
  induction r with
  | nil => simp [recordSet, recordFind]
  | cons p rest ih =>
    obtain ⟨k1, v1⟩ := p
    by_cases h : k1 = k
    · simp [recordSet, h, recordFind]
    · simpa [recordSet, h, recordFind] using ih

theorem recordFind_set_other (r : CarRecord) (k v k2 : String) (h : k2 ≠ k) :
    recordFind (recordSet r k v) k2 = recordFind r k2 := by
  induction r with
  | nil => simp [recordSet, recordFind, Ne.symm h]
  | cons p rest ih =>
    obtain ⟨k1, v1⟩ := p
    by_cases h1 : k1 = k
    · subst h1
      simp [recordSet, recordFind, Ne.symm h]
    · by_cases h2 : k1 = k2
      · simp [recordSet, h1, recordFind, h2, h]
      · simpa [recordSet, h1, recordFind, h2] using ih

theorem recordGet_eq_getD (r : CarRecord) (k d : String) :
    recordGet r k d = (recordFind r k).getD d := by
  simp only [recordGet, recordFind]
  cases r.find? (fun p => p.1 == k) <;> simp

theorem recordIndex_of_find (r : CarRecord) (k v : String)
    (h : recordFind r k = some v) : recordIndex r k = .ok v := by
  simp only [recordIndex, recordFind] at h ⊢
  cases hf : r.find? (fun p => p.1 == k) <;> simp [hf] at h ⊢
  exact h

theorem recordIndex_of_find_none (r : CarRecord) (k : String)
    (h : recordFind r k = none) : recordIndex r k = .error (.keyError k) := by
  simp only [recordIndex, recordFind] at h ⊢
  cases hf : r.find? (fun p => p.1 == k) <;> simp [hf] at h ⊢

theorem recordFind_none_getD (r : CarRecord) (k : String)
    (h : recordFind r k = none) : recordGet r k ("") = ("") := by
  rw [recordGet_eq_getD, h]
  rfl

/-! ### Title casing -/

theorem pyTitleAux_eq_runs (cs : List Char) :
    ∀ prev : Option Char,
      pyTitleAux ((prev.map Char.isAlpha).getD false) cs = titleByLetterRunsAux prev cs := by
  induction cs with
  | nil => intro prev; rfl
  | cons c rest ih =>
    intro prev
    by_cases h : c.isAlpha
    · have hr := ih (some c)
      simp [h] at hr
      simp [pyTitleAux, titleByLetterRunsAux, h, hr]
    · have hr := ih (some c)
      simp [h] at hr
      simp [pyTitleAux, titleByLetterRunsAux, h, hr]

/-- C6 (amended): the title casing the code applies uppercases the first
letter of each maximal letter run and lowercases the other letters of
the run, any non-letter separating runs; on the whitespace-separated
examples of the spec it gives Civic Hybrid and Civic. -/
theorem pyTitle_letter_runs :
    (∀ s : String, pyTitle s = titleByLetterRuns s) ∧
    pyTitle ("civic hybrid") = ("Civic Hybrid") ∧ pyTitle ("CIVIC") = ("Civic") := by
  refine ⟨fun s => ?_, by decide, by decide⟩
  have h := pyTitleAux_eq_runs s.toList none
  simp at h
  simp [pyTitle, titleByLetterRuns, h]

/-- C6 (counterexample): the claimed whitespace-word rule lowercases the
letter after a hyphen, but the code uppercases it: on the model string
a-b the code yields A-B while the claimed rule yields A-b. -/
theorem pyTitle_ne_whitespace_rule :
    pyTitle ("a-b") = ("A-B") ∧ titleByWhitespace ("a-b") = ("A-b") ∧
      pyTitle ("a-b") ≠ titleByWhitespace ("a-b") := by
  refine ⟨by decide, by decide, by decide⟩

/-! ### Price formatting -/

theorem pad2_spec : ∀ m : Nat, m < 100 →
    (pad2 m).length = 2 ∧ (pad2 m).toList.all Char.isDigit = true := by
  decide

/-- C7 (counterexample): Python float accepts the literal inf, and a
retained record with that price is emitted with the price field inf,
which contains no decimal point, so not every retained price is a
fixed two-decimal string. -/
theorem price_inf_not_two_decimal :
    format_car [(("car_model"), ("civic")), (("price"), ("inf"))] outHeader =
      .ok (("Civic,,inf,"), [(("car_model"), ("Civic")), (("price"), ("inf"))]) ∧
    ∀ pre frac : String, frac.length = 2 → ("inf") ≠ pre ++ (".") ++ frac := by
  refine ⟨by decide, ?_⟩
  intro pre frac hlen heq
  have hd : (("inf") : String).data = pre.data ++ ('.' :: frac.data) := by
    have := congrArg String.data heq
    simpa [String.data_append] using this
  have hl := congrArg List.length hd
  simp only [List.length_append, List.length_cons, List.length_nil] at hl
  have hfl : frac.data.length = 2 := hlen
  have hpre : pre.data.length = 0 := by omega
  rw [List.length_eq_zero.mp hpre, List.nil_append] at hd
  have h4 : (("inf") : String).data = ['i', 'n', 'f'] := rfl
  rw [h4] at hd
  injection hd with h5 h6
  exact absurd h5 (by decide)

/-- C7 (amended): every finite price is emitted as a fixed two-decimal
string: the decimal literal is rounded to the nearest binary double and
the double is rendered at two decimals with ties to even, so 9, 12.5
and 100.004 give 9.00, 12.50 and 100.00 and the half-way literal 0.005
gives 0.01 (its nearest double lies above the half-way point); but a
price parsed as an infinity or nan is rendered as inf or nan (see the
counterexample). -/
theorem price_format_finite_two_decimals :
    (∀ (neg : Bool) (m : Nat) (e : Int), ∃ pre frac : String,
      formatF2 (.finite neg m e) = pre ++ (".") ++ frac ∧ frac.length = 2 ∧
        frac.toList.all Char.isDigit = true) ∧
    (pyFloat ("9")).map formatF2 = some ("9.00") ∧
    (pyFloat ("12.5")).map formatF2 = some ("12.50") ∧
    (pyFloat ("100.004")).map formatF2 = some ("100.00") ∧
    (pyFloat ("0.005")).map formatF2 = some ("0.01") ∧
    (pyFloat ("inf")).map formatF2 = some ("inf") := by
  refine ⟨fun neg m e => ?_, by decide, by decide, by decide, by decide, by decide⟩
  refine ⟨(if neg then ("-") else ("")) ++
    toString ((if 0 ≤ e then m * 2 ^ e.toNat * 100
      else rheNat (m * 100) (2 ^ (-e).toNat)) / 100),
    pad2 ((if 0 ≤ e then m * 2 ^ e.toNat * 100
      else rheNat (m * 100) (2 ^ (-e).toNat)) % 100), ?_, ?_, ?_⟩
  · simp [formatF2, String.append_assoc]
  · exact (pad2_spec _ (Nat.mod_lt _ (by norm_num))).1
  · exact (pad2_spec _ (Nat.mod_lt _ (by norm_num))).2

/-! ### Formatting with missing fields -/

/-- C4 (counterexample): a record missing the price key makes
`format_car` raise `KeyError` instead of rendering the price as empty. -/
theorem format_car_missing_price_raises :
    format_car [(("car_model"), ("civic"))] outHeader =
      .error (.keyError ("price")) := by decide

/-- C4 (amended): when the record has a car model and a parseable price,
`format_car` succeeds and renders the year and fuel fields through
`get` with an empty-string default, so a missing year or fuel key
renders as the empty string; a missing price key instead raises (see
the counterexample). -/
theorem format_car_missing_fields (car : CarRecord) (p : String) (x : PyFloat) (m : String)
    (hp : recordFind car ("price") = some p) (hx : pyFloat p = some x)
    (hm : recordFind car ("car_model") = some m) :
    format_car car outHeader =
      .ok (pyJoin ',' [pyTitle m, recordGet car ("year_of_manufacture") (""), formatF2 x,
             recordGet car ("fuel") ("")],
           recordSet (recordSet car ("price") (formatF2 x)) ("car_model") (pyTitle m)) ∧
    (recordFind car ("year_of_manufacture") = none →
      recordGet car ("year_of_manufacture") ("") = ("")) ∧
    (recordFind car ("fuel") = none → recordGet car ("fuel") ("") = ("")) := by
  refine ⟨?_, recordFind_none_getD car _, recordFind_none_getD car _⟩
  have h1 : recordIndex car ("price") = .ok p := recordIndex_of_find car _ _ hp
  have h2 : recordFind (recordSet car ("price") (formatF2 x)) ("car_model") = some m := by
    rw [recordFind_set_other _ _ _ _ (by decide)]
    exact hm
  have h3 := recordIndex_of_find _ _ _ h2
  simp only [format_car, h1, hx, h3, outHeader, List.map_cons, List.map_nil]
  have e1 : recordGet (recordSet (recordSet car ("price") (formatF2 x)) ("car_model")
      (pyTitle m)) ("car_model") ("") = pyTitle m := by
    rw [recordGet_eq_getD, recordFind_set_same]
    rfl
  have e2 : recordGet (recordSet (recordSet car ("price") (formatF2 x)) ("car_model")
      (pyTitle m)) ("year_of_manufacture") ("") = recordGet car ("year_of_manufacture") ("") := by
    rw [recordGet_eq_getD, recordFind_set_other _ _ _ _ (by decide),
      recordFind_set_other _ _ _ _ (by decide), recordGet_eq_getD]
  have e3 : recordGet (recordSet (recordSet car ("price") (formatF2 x)) ("car_model")
      (pyTitle m)) ("price") ("") = formatF2 x := by
    rw [recordGet_eq_getD, recordFind_set_other _ _ _ _ (by decide), recordFind_set_same]
    rfl
  have e4 : recordGet (recordSet (recordSet car ("price") (formatF2 x)) ("car_model")
      (pyTitle m)) ("fuel") ("") = recordGet car ("fuel") ("") := by
    rw [recordGet_eq_getD, recordFind_set_other _ _ _ _ (by decide),
      recordFind_set_other _ _ _ _ (by decide), recordGet_eq_getD]
  rw [e1, e2, e3, e4]

/-- C4 (witness): a record holding only a model and a price formats into
a line with empty year and fuel fields. -/
theorem format_car_missing_fields_witness :
    format_car [(("car_model"), ("civic")), (("price"), ("9"))] outHeader =
      .ok (("Civic,,9.00,"),
           [(("car_model"), ("Civic")), (("price"), ("9.00"))]) := by
  have h := format_car_missing_fields
    [(("car_model"), ("civic")), (("price"), ("9"))] ("9") (PyFloat.finite false 5066549580791808 (-49)) ("civic")
    (by decide) (by decide) (by decide)
  exact h.1.trans (by decide)

/-! ### CSV body lines -/

/-- C8: the CSV reader emits a record for an empty body line: the line
splits into a list holding one empty string, the emptiness guard tests
the split result (which is never the empty list) instead of the line,
so the empty line zips against the header into a record mapping the
first header field to the empty string, and that record is counted
under the empty model name. A body line with fewer values than header
fields yields the partial record of the leading fields without error
(here the model field is first, so counting succeeds). -/
theorem read_csv_empty_line_emits_record :
    read_csv 0 [] [("car_model,price"), ("")] =
      .ok ([[(("car_model"), (""))]], [((""), 1)]) ∧
    read_csv 0 [] [("car_model,price"), ("civic")] =
      .ok ([[(("car_model"), ("civic"))]], [(("civic"), 1)]) := by
  refine ⟨by decide, by decide⟩

/-! ### Filtering with an unseen model -/

/-- C5 (counterexample): the filter pass indexes the frequency table
directly, so a buffered record whose model has no entry raises
`KeyError` instead of being silently dropped. -/
theorem filter_unseen_model_raises :
    writeCars 0 [(("Civic"), 3)] [[(("car_model"), ("Focus"))]] =
      .error (.keyError ("Focus")) := by decide

/-! ### XML rows without a model -/

/-- C10: when a row-closing line arrives while the accumulated record
has no model field, the XML reader raises `KeyError` out of the
counting step and emits nothing. -/
theorem read_xml_missing_model_keyerror (delay : Nat) (counts : Counts)
    (car : CarRecord) (l : String) (rest : List String)
    (hrow : pyStartsWith (pyStrip l) ("</row") = true)
    (hm : recordFind car ("car_model") = none) :
    xmlLoop delay counts car (l :: rest) = .error (.keyError ("car_model")) := by
  have hpre : (("</row") : String).toList <+: (pyStrip l).toList := by
    rw [← List.isPrefixOf_iff_prefix]
    exact hrow
  obtain ⟨t, ht⟩ := hpre
  have ht' : (pyStrip l).data = '<' :: '/' :: 'r' :: 'o' :: 'w' :: t := ht.symm
  have h1 : pyStartsWith (pyStrip l) ("<car_model") = false := by
    simp [pyStartsWith, String.toList, ht', List.isPrefixOf]
  have h2 : pyStartsWith (pyStrip l) ("<year") = false := by
    simp [pyStartsWith, String.toList, ht', List.isPrefixOf]
  have h3 : pyStartsWith (pyStrip l) ("<price") = false := by
    simp [pyStartsWith, String.toList, ht', List.isPrefixOf]
  have h4 : pyStartsWith (pyStrip l) ("<fuel") = false := by
    simp [pyStartsWith, String.toList, ht', List.isPrefixOf]
  have hcc : count_car counts car = .error (.keyError ("car_model")) := by
    simp [count_car, recordIndex_of_find_none car _ hm]
  simp [xmlLoop, h1, h2, h3, h4, hrow, hcc]

/-- C10 (witness): a row block holding no recognized field tag aborts
the XML reader with `KeyError` on the model field. -/
theorem read_xml_missing_model_keyerror_witness :
    xmlLoop 0 [] [] [("</row>")] = .error (.keyError ("car_model")) :=
  read_xml_missing_model_keyerror 0 [] [] ("</row>") [] (by decide) (by decide)

/-! ### The delay never reaches the data -/

theorem csvBody_delay (d1 d2 : Nat) (header : List String) :
    ∀ (lines : List String) (counts : Counts),
      csvBody d1 header counts lines = csvBody d2 header counts lines := by
  intro lines
  induction lines with
  | nil => intro counts; rfl
  | cons l rest ih =>
    intro counts
    simp only [csvBody, sleep]
    split
    · exact ih counts
    · split
      · rfl
      · rw [ih]

theorem read_csv_delay (d1 d2 : Nat) (counts : Counts) (lines : List String) :
    read_csv d1 counts lines = read_csv d2 counts lines := by
  cases lines with
  | nil => rfl
  | cons h rest => exact csvBody_delay d1 d2 _ rest counts

theorem read_json_delay (d1 d2 : Nat) :
    ∀ (lines : List String) (counts : Counts),
      read_json d1 counts lines = read_json d2 counts lines := by
  intro lines
  induction lines with
  | nil => intro counts; rfl
  | cons l rest ih =>
    intro counts
    simp only [read_json, sleep]
    split
    · exact ih counts
    · split
      · rfl
      · split
        · rfl
        · rw [ih]

theorem xmlLoop_delay (d1 d2 : Nat) :
    ∀ (lines : List String) (counts : Counts) (car : CarRecord),
      xmlLoop d1 counts car lines = xmlLoop d2 counts car lines := by
  intro lines
  induction lines with
  | nil => intro counts car; rfl
  | cons l rest ih =>
    intro counts car
    simp only [xmlLoop, sleep]
    split
    · split
      · rfl
      · rw [ih]
    · split
      · split
        · rfl
        · rw [ih]
      · split
        · split
          · rfl
          · rw [ih]
        · split
          · split
            · rfl
            · rw [ih]
          · split
            · split
              · rfl
              · rw [ih]
            · exact ih counts car

theorem read_xml_delay (d1 d2 : Nat) (counts : Counts) (lines : List String) :
    read_xml d1 counts lines = read_xml d2 counts lines :=
  xmlLoop_delay d1 d2 lines counts []

theorem ingestFiles_delay
    (reader : Nat → Counts → List String → Except PyErr (List CarRecord × Counts))
    (d1 d2 : Nat)
    (hr : ∀ (c : Counts) (f : List String), reader d1 c f = reader d2 c f) :
    ∀ (fs : List (List String)) (counts : Counts),
      ingestFiles reader d1 counts fs = ingestFiles reader d2 counts fs := by
  intro fs
  induction fs with
  | nil => intro counts; rfl
  | cons f rest ih =>
    intro counts
    simp only [ingestFiles]
    rw [hr counts f]
    split
    · rfl
    · rw [ih]

theorem runIngestion_delay (d1 d2 : Nat) (csvs jsons xmls : List (List String)) :
    runIngestion d1 csvs jsons xmls = runIngestion d2 csvs jsons xmls := by
  simp only [runIngestion]
  rw [ingestFiles_delay read_csv d1 d2 (read_csv_delay d1 d2) csvs []]
  split
  · rfl
  · rw [ingestFiles_delay read_json d1 d2 (fun c f => read_json_delay d1 d2 f c)]
    split
    · rfl
    · rw [ingestFiles_delay read_xml d1 d2 (read_xml_delay d1 d2)]

theorem writeCars_delay (d1 d2 : Nat) (counts : Counts) :
    ∀ rs : List CarRecord, writeCars d1 counts rs = writeCars d2 counts rs := by
  intro rs
  induction rs with
  | nil => rfl
  | cons car rest ih =>
    simp only [writeCars, sleep]
    split
    · rfl
    · split
      · rfl
      · split
        · split
          · rfl
          · rw [ih]
        · exact ih

/-- C9: the configured per-record delay has no effect on the result of
the run: two runs on identical inputs that differ only in the delay
produce identical output file contents (the header line and the
retained, formatted record lines in the same order), and fail
identically when they fail. -/
theorem delay_does_not_affect_output (d1 d2 : Nat)
    (csvs jsons xmls : List (List String)) :
    runPipeline d1 csvs jsons xmls = runPipeline d2 csvs jsons xmls := by
  simp only [runPipeline]
  rw [runIngestion_delay d1 d2 csvs jsons xmls]
  split
  · rfl
  · split
    · rfl
    · rw [writeCars_delay d1 d2]

/-! ### The frequency table counts emitted records -/

/-- Whether a record carries the given model name. -/
def modelIs (m : String) (r : CarRecord) : Bool :=
  recordFind r ("car_model") == some m

theorem countsGetD_set_same (c : Counts) (k : String) (n d : Nat) :
    countsGetD (countsSet c k n) k d = n := by
  induction c with
  | nil => simp [countsSet, countsGetD]
  | cons p rest ih =>
    obtain ⟨k1, v1⟩ := p
    by_cases h : k1 = k
    · simp [countsSet, h, countsGetD]
    · simpa [countsSet, h, countsGetD] using ih

theorem countsGetD_set_other (c : Counts) (k k2 : String) (n d : Nat) (h : k2 ≠ k) :
    countsGetD (countsSet c k n) k2 d = countsGetD c k2 d := by
  induction c with
  | nil => simp [countsSet, countsGetD, Ne.symm h]
  | cons p rest ih =>
    obtain ⟨k1, v1⟩ := p
    by_cases h1 : k1 = k
    · subst h1
      simp [countsSet, countsGetD, Ne.symm h]
    · by_cases h2 : k1 = k2
      · simp [countsSet, h1, countsGetD, h2, h]
      · simpa [countsSet, h1, countsGetD, h2] using ih

theorem recordIndex_ok_find (r : CarRecord) (k v : String)
    (h : recordIndex r k = .ok v) : recordFind r k = some v := by
  simp only [recordIndex, recordFind] at h ⊢
  cases hf : r.find? (fun p => p.1 == k) <;> simp [hf] at h ⊢
  exact h

theorem count_car_ok (counts : Counts) (car : CarRecord) (counts' : Counts)
    (h : count_car counts car = .ok counts') :
    ∃ m0, recordFind car ("car_model") = some m0 ∧
      counts' = countsSet counts m0 (countsGetD counts m0 0 + 1) := by
  simp only [count_car] at h
  cases hi : recordIndex car ("car_model") with
  | error e => rw [hi] at h; cases h
  | ok m0 =>
    rw [hi] at h
    cases h
    exact ⟨m0, recordIndex_ok_find car _ _ hi, rfl⟩

theorem count_car_getD (counts : Counts) (car : CarRecord) (counts' : Counts)
    (h : count_car counts car = .ok counts') (m : String) :
    countsGetD counts' m 0 =
      countsGetD counts m 0 + (if modelIs m car then 1 else 0) := by
  obtain ⟨m0, hm0, hset⟩ := count_car_ok counts car counts' h
  subst hset
  by_cases hm : m = m0
  · subst hm
    simp [countsGetD_set_same, modelIs, hm0]
  · rw [countsGetD_set_other _ _ _ _ _ hm]
    simp [modelIs, hm0, Ne.symm hm]

theorem csvBody_counts (d : Nat) (header : List String) :
    ∀ (lines : List String) (counts : Counts) (rs : List CarRecord) (counts' : Counts),
      csvBody d header counts lines = .ok (rs, counts') →
      ∀ m, countsGetD counts' m 0 = countsGetD counts m 0 + rs.countP (modelIs m) := by
  intro lines
  induction lines with
  | nil =>
    intro counts rs counts' h m
    simp only [csvBody] at h
    cases h
    simp
  | cons l rest ih =>
    intro counts rs counts' h m
    simp only [csvBody] at h
    split at h
    · simpa using ih counts rs counts' h m
    · split at h
      · cases h
      · rename_i c1 hcc
        split at h
        · cases h
        · rename_i cars c2 hrest
          cases h
          rw [List.countP_cons, ih c1 cars counts' hrest m, count_car_getD counts _ c1 hcc m]
          omega

theorem read_csv_counts (d : Nat) (counts : Counts) (lines : List String)
    (rs : List CarRecord) (counts' : Counts)
    (h : read_csv d counts lines = .ok (rs, counts')) :
    ∀ m, countsGetD counts' m 0 = countsGetD counts m 0 + rs.countP (modelIs m) := by
  cases lines with
  | nil => cases h
  | cons hl body => exact csvBody_counts d _ body counts rs counts' h

theorem read_json_counts (d : Nat) :
    ∀ (lines : List String) (counts : Counts) (rs : List CarRecord) (counts' : Counts),
      read_json d counts lines = .ok (rs, counts') →
      ∀ m, countsGetD counts' m 0 = countsGetD counts m 0 + rs.countP (modelIs m) := by
  intro lines
  induction lines with
  | nil =>
    intro counts rs counts' h m
    simp only [read_json] at h
    cases h
    simp
  | cons l rest ih =>
    intro counts rs counts' h m
    simp only [read_json] at h
    split at h
    · simpa using ih counts rs counts' h m
    · split at h
      · cases h
      · rename_i car hdec
        split at h
        · cases h
        · rename_i c1 hcc
          split at h
          · cases h
          · rename_i cars c2 hrest
            cases h
            rw [List.countP_cons, ih c1 cars counts' hrest m, count_car_getD counts _ c1 hcc m]
            omega

theorem xmlLoop_counts (d : Nat) :
    ∀ (lines : List String) (counts : Counts) (car : CarRecord)
      (rs : List CarRecord) (counts' : Counts),
      xmlLoop d counts car lines = .ok (rs, counts') →
      ∀ m, countsGetD counts' m 0 = countsGetD counts m 0 + rs.countP (modelIs m) := by
  intro lines
  induction lines with
  | nil =>
    intro counts car rs counts' h m
    simp only [xmlLoop] at h
    cases h
    simp
  | cons l rest ih =>
    intro counts car rs counts' h m
    simp only [xmlLoop] at h
    split at h
    · split at h
      · cases h
      · exact ih counts _ rs counts' h m
    · split at h
      · split at h
        · cases h
        · exact ih counts _ rs counts' h m
      · split at h
        · split at h
          · cases h
          · exact ih counts _ rs counts' h m
        · split at h
          · split at h
            · cases h
            · exact ih counts _ rs counts' h m
          · split at h
            · split at h
              · cases h
              · rename_i c1 hcc
                split at h
                · cases h
                · rename_i cars c2 hrest
                  cases h
                  rw [List.countP_cons, ih c1 [] cars counts' hrest m,
                    count_car_getD counts _ c1 hcc m]
                  omega
            · exact ih counts car rs counts' h m

theorem read_xml_counts (d : Nat) (counts : Counts) (lines : List String)
    (rs : List CarRecord) (counts' : Counts)
    (h : read_xml d counts lines = .ok (rs, counts')) :
    ∀ m, countsGetD counts' m 0 = countsGetD counts m 0 + rs.countP (modelIs m) :=
  xmlLoop_counts d lines counts [] rs counts' h

theorem ingestFiles_counts
    (reader : Nat → Counts → List String → Except PyErr (List CarRecord × Counts))
    (d : Nat)
    (hreader : ∀ (c : Counts) (f : List String) (rs : List CarRecord) (c2 : Counts),
      reader d c f = .ok (rs, c2) →
      ∀ m, countsGetD c2 m 0 = countsGetD c m 0 + rs.countP (modelIs m)) :
    ∀ (fs : List (List String)) (counts : Counts) (rs : List CarRecord) (counts' : Counts),
      ingestFiles reader d counts fs = .ok (rs, counts') →
      ∀ m, countsGetD counts' m 0 = countsGetD counts m 0 + rs.countP (modelIs m) := by
  intro fs
  induction fs with
  | nil =>
    intro counts rs counts' h m
    simp only [ingestFiles] at h
    cases h
    simp
  | cons f rest ih =>
    intro counts rs counts' h m
    simp only [ingestFiles] at h
    split at h
    · cases h
    · rename_i rs1 c1 hf
      split at h
      · cases h
      · rename_i rs2 c2 hrest
        cases h
        rw [List.countP_append, ih c1 rs2 counts' hrest m, hreader counts f rs1 c1 hf m]
        omega

/-- C2: after the ingestion pass completes, the frequency table maps
every model-name string to exactly the number of records emitted across
all CSV, JSON and XML source files whose model field equals it, keyed by
the casing as it appears in the sources; an unseen model reads as zero
through the `get` default. -/
theorem counts_eq_model_occurrences (delay : Nat)
    (csvs jsons xmls : List (List String)) (records : List CarRecord) (counts : Counts)
    (h : runIngestion delay csvs jsons xmls = .ok (records, counts)) (m : String) :
    countsGetD counts m 0 = records.countP (modelIs m) := by
  simp only [runIngestion] at h
  split at h
  · cases h
  · rename_i r1 c1 h1
    split at h
    · cases h
    · rename_i r2 c2 h2
      split at h
      · cases h
      · rename_i r3 c3 h3
        cases h
        have hcsv := ingestFiles_counts read_csv delay
          (fun c f rs c2 hh => read_csv_counts delay c f rs c2 hh) csvs [] r1 c1 h1 m
        have hjson := ingestFiles_counts read_json delay
          (fun c f rs c2 hh => read_json_counts delay f c rs c2 hh) jsons c1 r2 c2 h2 m
        have hxml := ingestFiles_counts read_xml delay
          (fun c f rs c2 hh => read_xml_counts delay c f rs c2 hh) xmls c2 r3 counts h3 m
        have h0 : countsGetD [] m 0 = 0 := rfl
        rw [List.countP_append, List.countP_append]
        omega

/-- C2 (witness): on a concrete mixed run of one CSV, one JSON-lines and
one XML file, the count for civic equals the number of civic records. -/
theorem counts_eq_model_occurrences_witness :
    countsGetD [(("civic"), 3), (("focus"), 1)] ("civic") 0 =
      ([[(("car_model"), ("civic")), (("price"), ("9"))],
        [(("car_model"), ("focus")), (("price"), ("7"))],
        [(("car_model"), ("civic")), (("price"), ("8"))],
        [(("car_model"), ("civic")), (("price"), ("6"))]] :
          List CarRecord).countP (modelIs ("civic")) :=
  counts_eq_model_occurrences 0
    [[("car_model,price"), ("civic,9"), ("focus,7")]]
    [[("\x7b\"car_model\": \"civic\", \"price\": \"8\"\x7d")]]
    [[("<car_model>civic</car_model>"), ("<price>6</price>"), ("</row>")]]
    _ _ (by decide) ("civic")

/-! ### Every buffered record was counted before buffering -/

/-- Pointwise ordering of frequency tables: counts only grow. -/
def countsLe (c1 c2 : Counts) : Prop :=
  ∀ k, countsGetD c1 k 0 ≤ countsGetD c2 k 0

theorem count_car_le (counts : Counts) (car : CarRecord) (counts' : Counts)
    (h : count_car counts car = .ok counts') : countsLe counts counts' := by
  intro k
  rw [count_car_getD counts car counts' h k]
  omega

theorem csvBody_le (d : Nat) (header : List String) (lines : List String)
    (counts : Counts) (rs : List CarRecord) (counts' : Counts)
    (h : csvBody d header counts lines = .ok (rs, counts')) : countsLe counts counts' := by
  intro k
  rw [csvBody_counts d header lines counts rs counts' h k]
  omega

theorem read_json_le (d : Nat) (lines : List String)
    (counts : Counts) (rs : List CarRecord) (counts' : Counts)
    (h : read_json d counts lines = .ok (rs, counts')) : countsLe counts counts' := by
  intro k
  rw [read_json_counts d lines counts rs counts' h k]
  omega

theorem xmlLoop_le (d : Nat) (lines : List String) (counts : Counts) (car : CarRecord)
    (rs : List CarRecord) (counts' : Counts)
    (h : xmlLoop d counts car lines = .ok (rs, counts')) : countsLe counts counts' := by
  intro k
  rw [xmlLoop_counts d lines counts car rs counts' h k]
  omega

theorem ingestFiles_le
    (reader : Nat → Counts → List String → Except PyErr (List CarRecord × Counts))
    (d : Nat)
    (hreader : ∀ (c : Counts) (f : List String) (rs : List CarRecord) (c2 : Counts),
      reader d c f = .ok (rs, c2) →
      ∀ m, countsGetD c2 m 0 = countsGetD c m 0 + rs.countP (modelIs m))
    (fs : List (List String)) (counts : Counts) (rs : List CarRecord) (counts' : Counts)
    (h : ingestFiles reader d counts fs = .ok (rs, counts')) : countsLe counts counts' := by
  intro k
  rw [ingestFiles_counts reader d hreader fs counts rs counts' h k]
  omega

/-- A count of at least one means direct indexing succeeds and returns
the same value the `get` default lookup returns. -/
theorem countsIndex_of_pos (c : Counts) (k : String) (h : 1 ≤ countsGetD c k 0) :
    countsIndex c k = .ok (countsGetD c k 0) := by
  simp only [countsIndex, countsGetD] at h ⊢
  cases hf : c.find? (fun p => p.1 == k) with
  | none =>
    rw [hf] at h
    exact absurd h (by decide)
  | some p => rfl

theorem csvBody_models (d : Nat) (header : List String) :
    ∀ (lines : List String) (counts : Counts) (rs : List CarRecord) (counts' : Counts),
      csvBody d header counts lines = .ok (rs, counts') →
      ∀ r ∈ rs, ∃ m, recordFind r ("car_model") = some m ∧ 1 ≤ countsGetD counts' m 0 := by
  intro lines
  induction lines with
  | nil =>
    intro counts rs counts' h r hr
    simp only [csvBody] at h
    cases h
    cases hr
  | cons l rest ih =>
    intro counts rs counts' h r hr
    simp only [csvBody] at h
    split at h
    · exact ih counts rs counts' h r hr
    · split at h
      · cases h
      · rename_i c1 hcc
        split at h
        · cases h
        · rename_i cars c2 hrest
          cases h
          cases hr with
          | head =>
            obtain ⟨m, hm, hset⟩ := count_car_ok counts _ c1 hcc
            refine ⟨m, hm, ?_⟩
            have h1 : 1 ≤ countsGetD c1 m 0 := by
              rw [hset, countsGetD_set_same]
              omega
            exact le_trans h1 (csvBody_le d header rest c1 cars counts' hrest m)
          | tail _ hmem => exact ih c1 cars counts' hrest r hmem

theorem read_csv_models (d : Nat) (counts : Counts) (lines : List String)
    (rs : List CarRecord) (counts' : Counts)
    (h : read_csv d counts lines = .ok (rs, counts')) :
    ∀ r ∈ rs, ∃ m, recordFind r ("car_model") = some m ∧ 1 ≤ countsGetD counts' m 0 := by
  cases lines with
  | nil => cases h
  | cons hl body => exact csvBody_models d _ body counts rs counts' h

theorem read_json_models (d : Nat) :
    ∀ (lines : List String) (counts : Counts) (rs : List CarRecord) (counts' : Counts),
      read_json d counts lines = .ok (rs, counts') →
      ∀ r ∈ rs, ∃ m, recordFind r ("car_model") = some m ∧ 1 ≤ countsGetD counts' m 0 := by
  intro lines
  induction lines with
  | nil =>
    intro counts rs counts' h r hr
    simp only [read_json] at h
    cases h
    cases hr
  | cons l rest ih =>
    intro counts rs counts' h r hr
    simp only [read_json] at h
    split at h
    · exact ih counts rs counts' h r hr
    · split at h
      · cases h
      · rename_i car hdec
        split at h
        · cases h
        · rename_i c1 hcc
          split at h
          · cases h
          · rename_i cars c2 hrest
            cases h
            cases hr with
            | head =>
              obtain ⟨m, hm, hset⟩ := count_car_ok counts _ c1 hcc
              refine ⟨m, hm, ?_⟩
              have h1 : 1 ≤ countsGetD c1 m 0 := by
                rw [hset, countsGetD_set_same]
                omega
              exact le_trans h1 (read_json_le d rest c1 cars counts' hrest m)
            | tail _ hmem => exact ih c1 cars counts' hrest r hmem

theorem xmlLoop_models (d : Nat) :
    ∀ (lines : List String) (counts : Counts) (car : CarRecord)
      (rs : List CarRecord) (counts' : Counts),
      xmlLoop d counts car lines = .ok (rs, counts') →
      ∀ r ∈ rs, ∃ m, recordFind r ("car_model") = some m ∧ 1 ≤ countsGetD counts' m 0 := by
  intro lines
  induction lines with
  | nil =>
    intro counts car rs counts' h r hr
    simp only [xmlLoop] at h
    cases h
    cases hr
  | cons l rest ih =>
    intro counts car rs counts' h r hr
    simp only [xmlLoop] at h
    split at h
    · split at h
      · cases h
      · exact ih counts _ rs counts' h r hr
    · split at h
      · split at h
        · cases h
        · exact ih counts _ rs counts' h r hr
      · split at h
        · split at h
          · cases h
          · exact ih counts _ rs counts' h r hr
        · split at h
          · split at h
            · cases h
            · exact ih counts _ rs counts' h r hr
          · split at h
            · split at h
              · cases h
              · rename_i c1 hcc
                split at h
                · cases h
                · rename_i cars c2 hrest
                  cases h
                  cases hr with
                  | head =>
                    obtain ⟨m, hm, hset⟩ := count_car_ok counts _ c1 hcc
                    refine ⟨m, hm, ?_⟩
                    have h1 : 1 ≤ countsGetD c1 m 0 := by
                      rw [hset, countsGetD_set_same]
                      omega
                    exact le_trans h1 (xmlLoop_le d rest c1 [] cars counts' hrest m)
                  | tail _ hmem => exact ih c1 [] cars counts' hrest r hmem
            · exact ih counts car rs counts' h r hr

theorem read_xml_models (d : Nat) (counts : Counts) (lines : List String)
    (rs : List CarRecord) (counts' : Counts)
    (h : read_xml d counts lines = .ok (rs, counts')) :
    ∀ r ∈ rs, ∃ m, recordFind r ("car_model") = some m ∧ 1 ≤ countsGetD counts' m 0 :=
  xmlLoop_models d lines counts [] rs counts' h

theorem ingestFiles_models
    (reader : Nat → Counts → List String → Except PyErr (List CarRecord × Counts))
    (d : Nat)
    (hcounts : ∀ (c : Counts) (f : List String) (rs : List CarRecord) (c2 : Counts),
      reader d c f = .ok (rs, c2) →
      ∀ m, countsGetD c2 m 0 = countsGetD c m 0 + rs.countP (modelIs m))
    (hmodels : ∀ (c : Counts) (f : List String) (rs : List CarRecord) (c2 : Counts),
      reader d c f = .ok (rs, c2) →
      ∀ r ∈ rs, ∃ m, recordFind r ("car_model") = some m ∧ 1 ≤ countsGetD c2 m 0) :
    ∀ (fs : List (List String)) (counts : Counts) (rs : List CarRecord) (counts' : Counts),
      ingestFiles reader d counts fs = .ok (rs, counts') →
      ∀ r ∈ rs, ∃ m, recordFind r ("car_model") = some m ∧ 1 ≤ countsGetD counts' m 0 := by
  intro fs
  induction fs with
  | nil =>
    intro counts rs counts' h r hr
    simp only [ingestFiles] at h
    cases h
    cases hr
  | cons f rest ih =>
    intro counts rs counts' h r hr
    simp only [ingestFiles] at h
    split at h
    · cases h
    · rename_i rs1 c1 hf
      split at h
      · cases h
      · rename_i rs2 c2 hrest
        cases h
        rcases List.mem_append.mp hr with hmem | hmem
        · obtain ⟨m, hm, h1⟩ := hmodels counts f rs1 c1 hf r hmem
          exact ⟨m, hm, le_trans h1
            (ingestFiles_le reader d hcounts rest c1 rs2 counts' hrest m)⟩
        · exact ih c1 rs2 counts' hrest r hmem

theorem runIngestion_models (delay : Nat)
    (csvs jsons xmls : List (List String)) (records : List CarRecord) (counts : Counts)
    (h : runIngestion delay csvs jsons xmls = .ok (records, counts)) :
    ∀ r ∈ records, ∃ m, recordFind r ("car_model") = some m ∧
      countsIndex counts m = .ok (countsGetD counts m 0) ∧ 1 ≤ countsGetD counts m 0 := by
  intro r hr
  simp only [runIngestion] at h
  split at h
  · cases h
  · rename_i r1 c1 h1
    split at h
    · cases h
    · rename_i r2 c2 h2
      split at h
      · cases h
      · rename_i r3 c3 h3
        cases h
        have hcsv := ingestFiles_models read_csv delay
          (fun c f rs c2 hh => read_csv_counts delay c f rs c2 hh)
          (fun c f rs c2 hh => read_csv_models delay c f rs c2 hh) csvs [] r1 c1 h1
        have hjson := ingestFiles_models read_json delay
          (fun c f rs c2 hh => read_json_counts delay f c rs c2 hh)
          (fun c f rs c2 hh => read_json_models delay f c rs c2 hh) jsons c1 r2 c2 h2
        have hxml := ingestFiles_models read_xml delay
          (fun c f rs c2 hh => read_xml_counts delay c f rs c2 hh)
          (fun c f rs c2 hh => read_xml_models delay c f rs c2 hh) xmls c2 r3 counts h3
        have hj_le := ingestFiles_le read_json delay
          (fun c f rs c2 hh => read_json_counts delay f c rs c2 hh) jsons c1 r2 c2 h2
        have hx_le := ingestFiles_le read_xml delay
          (fun c f rs c2 hh => read_xml_counts delay c f rs c2 hh) xmls c2 r3 counts h3
        rcases List.mem_append.mp hr with hmem | hmem3
        · rcases List.mem_append.mp hmem with hmem1 | hmem2
          · obtain ⟨m, hm, hpos⟩ := hcsv r hmem1
            have hp : 1 ≤ countsGetD counts m 0 :=
              le_trans hpos (le_trans (hj_le m) (hx_le m))
            exact ⟨m, hm, countsIndex_of_pos counts m hp, hp⟩
          · obtain ⟨m, hm, hpos⟩ := hjson r hmem2
            have hp : 1 ≤ countsGetD counts m 0 := le_trans hpos (hx_le m)
            exact ⟨m, hm, countsIndex_of_pos counts m hp, hp⟩
        · obtain ⟨m, hm, hpos⟩ := hxml r hmem3
          exact ⟨m, hm, countsIndex_of_pos counts m hpos, hpos⟩

/-- C5 (amended): in every completed ingestion pass, each buffered
record carries a model that is already a key of the final frequency
table with a count of at least one, so the direct indexing the filter
performs succeeds for every record the pipeline buffered (an unseen
model would instead raise, see the counterexample). -/
theorem buffered_models_always_counted (delay : Nat)
    (csvs jsons xmls : List (List String)) (records : List CarRecord) (counts : Counts)
    (h : runIngestion delay csvs jsons xmls = .ok (records, counts)) :
    ∀ r ∈ records, ∃ m, recordFind r ("car_model") = some m ∧
      countsIndex counts m = .ok (countsGetD counts m 0) ∧ 1 ≤ countsGetD counts m 0 :=
  runIngestion_models delay csvs jsons xmls records counts h

/-- C5 (amended, witness): in a concrete run the single buffered record
has its model present in the table with a positive count. -/
theorem buffered_models_always_counted_witness :
    ∃ m, recordFind [(("car_model"), ("a"))] ("car_model") = some m ∧
      countsIndex [(("a"), 1)] m = .ok (countsGetD [(("a"), 1)] m 0) ∧
      1 ≤ countsGetD [(("a"), 1)] m 0 :=
  buffered_models_always_counted 0 [] []
    [[("<car_model>a</car_model>"), ("</row>")]]
    [[(("car_model"), ("a"))]] [(("a"), 1)] (by decide)
    [(("car_model"), ("a"))] (by decide)

/-! ### Correctness of the buffer codec -/

theorem charValid (c : Char) :
    c.toNat < 55296 ∨ (57343 < c.toNat ∧ c.toNat < 1114112) := c.valid

theorem hexVal_hexDigitChar : ∀ d : Nat, d < 16 → hexVal (hexDigitChar d) = some d := by
  decide

theorem hexVal4_hex4 (n : Nat) (h : n < 65536) :
    hexVal4 (hexDigitChar (n / 4096 % 16)) (hexDigitChar (n / 256 % 16))
      (hexDigitChar (n / 16 % 16)) (hexDigitChar (n % 16)) = some n := by
  have h1 := hexVal_hexDigitChar (n / 4096 % 16) (Nat.mod_lt _ (by omega))
  have h2 := hexVal_hexDigitChar (n / 256 % 16) (Nat.mod_lt _ (by omega))
  have h3 := hexVal_hexDigitChar (n / 16 % 16) (Nat.mod_lt _ (by omega))
  have h4 := hexVal_hexDigitChar (n % 16) (Nat.mod_lt _ (by omega))
  simp only [hexVal4, h1, h2, h3, h4]
  congr 1
  omega

/-- Evaluation of the escape reader on a unicode escape. -/
theorem readEscUnit_unicode (w x y z : Char) (t : List Char) :
    readEscUnit ('u' :: w :: x :: y :: z :: t) =
      match hexVal4 w x y z with
      | none => none
      | some n =>
        if 55296 ≤ n ∧ n < 56320 then
          match t with
          | '\\' :: 'u' :: g1 :: g2 :: g3 :: g4 :: rest3 =>
            match hexVal4 g1 g2 g3 g4 with
            | none => none
            | some m =>
              if 56320 ≤ m ∧ m < 57344 then
                some (Char.ofNat (65536 + (n - 55296) * 1024 + (m - 56320)), rest3)
              else none
          | _ => none
        else if 56320 ≤ n ∧ n < 57344 then none
        else some (Char.ofNat n, t) := rfl

theorem readEscUnit_u_single (w x y z : Char) (t : List Char) (n : Nat)
    (hx : hexVal4 w x y z = some n) (hns : n < 55296 ∨ 57343 < n) :
    readEscUnit ('u' :: w :: x :: y :: z :: t) = some (Char.ofNat n, t) := by
  have h := readEscUnit_unicode w x y z t
  simp only [hx] at h
  rw [h, if_neg (by omega), if_neg (by omega)]

theorem readEscUnit_u_pair (w x y z g1 g2 g3 g4 : Char) (t : List Char) (n m : Nat)
    (hx : hexVal4 w x y z = some n) (hy : hexVal4 g1 g2 g3 g4 = some m)
    (hn : 55296 ≤ n ∧ n < 56320) (hm : 56320 ≤ m ∧ m < 57344) :
    readEscUnit ('u' :: w :: x :: y :: z :: '\\' :: 'u' :: g1 :: g2 :: g3 :: g4 :: t) =
      some (Char.ofNat (65536 + (n - 55296) * 1024 + (m - 56320)), t) := by
  have h := readEscUnit_unicode w x y z ('\\' :: 'u' :: g1 :: g2 :: g3 :: g4 :: t)
  simp only [hx] at h
  rw [h, if_pos hn]
  simp only [hy]
  rw [if_pos hm]

/-- Evaluation of the body reader on a backslash head. -/
theorem parseStringBody_bs (f : Nat) (r : List Char) :
    parseStringBody (Nat.succ f) ('\\' :: r) =
      match readEscUnit r with
      | none => none
      | some p => consFst p.1 (parseStringBody f p.2) := rfl

/-- The escape applied by the encoder decodes back to the same
character: the decoded content of an encoded string body is the
original character sequence. -/
theorem parseStringBody_escape :
    ∀ (cs : List Char) (fuel : Nat) (rest : List Char), cs.length < fuel →
      parseStringBody fuel ((cs.flatMap escapeChar) ++ ('"' :: rest)) = some (cs, rest) := by
  intro cs
  induction cs with
  | nil =>
    intro fuel rest hf
    cases fuel with
    | zero => omega
    | succ f => rfl
  | cons c cs ih =>
    intro fuel rest hf
    cases fuel with
    | zero => omega
    | succ f =>
    have hcs : cs.length < f := by
      simp only [List.length_cons] at hf
      omega
    rw [List.flatMap_cons, List.append_assoc]
    by_cases h1 : c = '"'
    · subst h1
      rw [show escapeChar '"' = ['\\', '"'] from rfl]
      simp only [List.cons_append, List.nil_append]
      rw [parseStringBody_bs]
      rw [show ∀ t : List Char, readEscUnit ('"' :: t) = some ('"', t) from fun t => rfl]
      simp [ih f rest hcs, consFst]
    by_cases h2 : c = '\\'
    · subst h2
      rw [show escapeChar '\\' = ['\\', '\\'] from rfl]
      simp only [List.cons_append, List.nil_append]
      rw [parseStringBody_bs]
      rw [show ∀ t : List Char, readEscUnit ('\\' :: t) = some ('\\', t) from fun t => rfl]
      simp [ih f rest hcs, consFst]
    by_cases h3 : c = '\n'
    · subst h3
      rw [show escapeChar '\n' = ['\\', 'n'] from rfl]
      simp only [List.cons_append, List.nil_append]
      rw [parseStringBody_bs]
      rw [show ∀ t : List Char, readEscUnit ('n' :: t) = some ('\n', t) from fun t => rfl]
      simp [ih f rest hcs, consFst]
    by_cases h4 : c = '\r'
    · subst h4
      rw [show escapeChar '\r' = ['\\', 'r'] from rfl]
      simp only [List.cons_append, List.nil_append]
      rw [parseStringBody_bs]
      rw [show ∀ t : List Char, readEscUnit ('r' :: t) = some ('\r', t) from fun t => rfl]
      simp [ih f rest hcs, consFst]
    by_cases h5 : c = '\t'
    · subst h5
      rw [show escapeChar '\t' = ['\\', 't'] from rfl]
      simp only [List.cons_append, List.nil_append]
      rw [parseStringBody_bs]
      rw [show ∀ t : List Char, readEscUnit ('t' :: t) = some ('\t', t) from fun t => rfl]
      simp [ih f rest hcs, consFst]
    by_cases h6 : c.toNat = 8
    · have hc : c = Char.ofNat 8 := by rw [← h6, Char.ofNat_toNat]
      subst hc
      rw [show escapeChar (Char.ofNat 8) = ['\\', 'b'] from rfl]
      simp only [List.cons_append, List.nil_append]
      rw [parseStringBody_bs]
      rw [show ∀ t : List Char, readEscUnit ('b' :: t) = some (Char.ofNat 8, t) from
        fun t => rfl]
      simp [ih f rest hcs, consFst]
    by_cases h7 : c.toNat = 12
    · have hc : c = Char.ofNat 12 := by rw [← h7, Char.ofNat_toNat]
      subst hc
      rw [show escapeChar (Char.ofNat 12) = ['\\', 'f'] from rfl]
      simp only [List.cons_append, List.nil_append]
      rw [parseStringBody_bs]
      rw [show ∀ t : List Char, readEscUnit ('f' :: t) = some (Char.ofNat 12, t) from
        fun t => rfl]
      simp [ih f rest hcs, consFst]
    by_cases h8 : c.toNat < 32
    · have he : escapeChar c = '\\' :: 'u' :: hex4 c.toNat := by
        simp [escapeChar, h1, h2, h3, h4, h5, h6, h7, h8]
      rw [he]
      simp only [hex4, List.cons_append, List.nil_append]
      rw [parseStringBody_bs]
      rw [readEscUnit_u_single _ _ _ _ _ c.toNat
        (hexVal4_hex4 c.toNat (by omega)) (by omega)]
      simp [ih f rest hcs, consFst]
    by_cases h9 : c.toNat < 127
    · have he : escapeChar c = [c] := by
        simp [escapeChar, h1, h2, h3, h4, h5, h6, h7, h8, h9]
      rw [he]
      simp only [List.cons_append, List.nil_append]
      simp only [parseStringBody]
      rw [if_neg h1, if_neg h2, if_neg h8]
      simp [ih f rest hcs, consFst]
    by_cases h10 : c.toNat < 65536
    · have he : escapeChar c = '\\' :: 'u' :: hex4 c.toNat := by
        simp [escapeChar, h1, h2, h3, h4, h5, h6, h7, h8, h9, h10]
      rw [he]
      simp only [hex4, List.cons_append, List.nil_append]
      rw [parseStringBody_bs]
      rw [readEscUnit_u_single _ _ _ _ _ c.toNat
        (hexVal4_hex4 c.toNat (by omega))
        (by rcases charValid c with hv | hv <;> omega)]
      simp [ih f rest hcs, consFst]
    · have hval : 57343 < c.toNat ∧ c.toNat < 1114112 := by
        rcases charValid c with hv | hv <;> omega
      have he : escapeChar c =
          ('\\' :: 'u' :: hex4 (55296 + (c.toNat - 65536) / 1024)) ++
          ('\\' :: 'u' :: hex4 (56320 + (c.toNat - 65536) % 1024)) := by
        simp [escapeChar, h1, h2, h3, h4, h5, h6, h7, h8, h9, h10]
      rw [he]
      simp only [hex4, List.cons_append, List.nil_append, List.append_assoc]
      rw [parseStringBody_bs]
      rw [readEscUnit_u_pair _ _ _ _ _ _ _ _ _
        (55296 + (c.toNat - 65536) / 1024) (56320 + (c.toNat - 65536) % 1024)
        (hexVal4_hex4 _ (by omega)) (hexVal4_hex4 _ (by omega))
        ⟨by omega, by omega⟩ ⟨by omega, by omega⟩]
      simp [ih f rest hcs, consFst]
      have hcomb : 65536 + (c.toNat - 65536) / 1024 * 1024 +
          (c.toNat - 65536) % 1024 = c.toNat := by omega
      rw [hcomb, Char.ofNat_toNat]

theorem mk_toList (s : String) : String.mk s.toList = s := rfl

set_option maxHeartbeats 1000000 in
theorem escapeChar_length_pos (c : Char) : 1 ≤ (escapeChar c).length := by
  simp only [escapeChar]
  split_ifs <;> simp [hex4]

theorem flatMap_escape_length (cs : List Char) :
    cs.length ≤ (cs.flatMap escapeChar).length := by
  induction cs with
  | nil => simp
  | cons c cs ih =>
    simp only [List.flatMap_cons, List.length_append, List.length_cons]
    have := escapeChar_length_pos c
    omega

theorem parseJString_encode (cs : List Char) (tail : List Char) :
    parseJString (encodeStringChars cs ++ tail) = some (cs, tail) := by
  simp only [encodeStringChars, List.cons_append, List.append_assoc, List.singleton_append]
  simp only [parseJString, if_pos]
  apply parseStringBody_escape
  have h1 := flatMap_escape_length cs
  simp only [List.length_append, List.length_cons]
  omega

theorem skipJsonWs_cons (c : Char) (l : List Char)
    (h : (c = ' ' || c = '\t' || c = '\n' || c = '\r') = false) :
    skipJsonWs (c :: l) = c :: l := by
  simp only [skipJsonWs, List.dropWhile_cons, h]
  rfl

theorem skipJsonWs_space (l : List Char) : skipJsonWs (' ' :: l) = skipJsonWs l := by
  simp [skipJsonWs, List.dropWhile_cons]

theorem skipJsonWs_encodeString (cs : List Char) (X : List Char) :
    skipJsonWs (encodeStringChars cs ++ X) = encodeStringChars cs ++ X := by
  simp only [encodeStringChars, List.cons_append]
  exact skipJsonWs_cons _ _ (by decide)

theorem interc_one (sep : List Char) (x : List Char) :
    List.intercalate sep [x] = x := by
  simp [List.intercalate, List.intersperse]

theorem interc_cons (sep : List Char) (x y : List Char) (t : List (List Char)) :
    List.intercalate sep (x :: y :: t) = x ++ (sep ++ List.intercalate sep (y :: t)) := by
  simp [List.intercalate, List.intersperse]

theorem interc_cons1 (sep x : List Char) (t : List (List Char)) (h : t ≠ []) :
    List.intercalate sep (x :: t) = x ++ (sep ++ List.intercalate sep t) := by
  cases t with
  | nil => exact absurd rfl h
  | cons y ys => exact interc_cons sep x y ys

theorem skipJsonWs_colon (l : List Char) : skipJsonWs (':' :: l) = ':' :: l :=
  skipJsonWs_cons _ _ (by decide)

theorem skipJsonWs_comma (l : List Char) : skipJsonWs (',' :: l) = ',' :: l :=
  skipJsonWs_cons _ _ (by decide)

theorem skipJsonWs_rbrace (l : List Char) : skipJsonWs ('\x7d' :: l) = '\x7d' :: l :=
  skipJsonWs_cons _ _ (by decide)

theorem skipJsonWs_lbrace (l : List Char) : skipJsonWs ('\x7b' :: l) = '\x7b' :: l :=
  skipJsonWs_cons _ _ (by decide)

theorem skipJsonWs_members (q : String × String) (qs : List (String × String))
    (X : List Char) :
    skipJsonWs (List.intercalate [',', ' '] ((q :: qs).map encodePairChars) ++ X) =
      List.intercalate [',', ' '] ((q :: qs).map encodePairChars) ++ X := by
  cases qs with
  | nil =>
    rw [List.map_cons, List.map_nil, interc_one]
    simp only [encodePairChars, List.append_assoc]
    exact skipJsonWs_encodeString _ _
  | cons r rs =>
    rw [List.map_cons, interc_cons1 _ _ _ (by simp)]
    simp only [encodePairChars, List.append_assoc]
    exact skipJsonWs_encodeString _ _

theorem parseMembers_encode :
    ∀ (ps : List (String × String)) (fuel : Nat) (tail : List Char),
      ps ≠ [] → ps.length ≤ fuel →
      parseMembers fuel
        (List.intercalate [',', ' '] (ps.map encodePairChars) ++ ('\x7d' :: tail)) =
        some (ps, tail) := by
  intro ps
  induction ps with
  | nil => intro fuel tail hne hf; exact absurd rfl hne
  | cons p ps ih =>
    intro fuel tail hne hfuel
    obtain ⟨k, v⟩ := p
    cases fuel with
    | zero =>
      simp only [List.length_cons] at hfuel
      omega
    | succ f =>
      cases ps with
      | nil =>
        rw [List.map_cons, List.map_nil, interc_one]
        simp only [encodePairChars, List.append_assoc, List.cons_append, List.nil_append,
          parseMembers, parseJString_encode, skipJsonWs_colon, skipJsonWs_space,
          skipJsonWs_encodeString, skipJsonWs_rbrace, mk_toList]
      | cons q qs =>
        rw [List.map_cons, interc_cons1 _ _ _ (by simp)]
        simp only [encodePairChars, List.append_assoc, List.cons_append, List.nil_append,
          parseMembers, parseJString_encode, skipJsonWs_colon, skipJsonWs_space,
          skipJsonWs_encodeString, skipJsonWs_comma, skipJsonWs_members, mk_toList]
        have hih := ih f tail (by simp) (by
          simp only [List.length_cons] at hfuel ⊢
          omega)
        simp only [hih]

theorem encodePair_length_pos (p : String × String) :
    1 ≤ (encodePairChars p).length := by
  simp [encodePairChars, encodeStringChars]

theorem members_length_ge (ps : List (String × String)) :
    ps.length ≤ (List.intercalate [',', ' '] (ps.map encodePairChars)).length := by
  induction ps with
  | nil => simp [List.intercalate]
  | cons p ps ih =>
    cases ps with
    | nil =>
      rw [List.map_cons, List.map_nil, interc_one]
      have := encodePair_length_pos p
      simpa using this
    | cons q qs =>
      rw [List.map_cons, interc_cons1 _ _ _ (by simp)]
      have h1 := encodePair_length_pos p
      simp only [List.length_append, List.length_cons] at ih ⊢
      omega

theorem members_head (p : String × String) (ps : List (String × String)) :
    ∃ t, List.intercalate [',', ' '] ((p :: ps).map encodePairChars) = '"' :: t := by
  cases ps with
  | nil =>
    refine ⟨p.1.toList.flatMap escapeChar ++ ['"'] ++
      (':' :: ' ' :: encodeStringChars p.2.toList), ?_⟩
    rw [List.map_cons, List.map_nil, interc_one]
    simp [encodePairChars, encodeStringChars, List.cons_append, List.append_assoc]
  | cons q qs =>
    refine ⟨p.1.toList.flatMap escapeChar ++ ['"'] ++
      (':' :: ' ' :: encodeStringChars p.2.toList) ++
      ([',', ' '] ++ List.intercalate [',', ' '] (List.map encodePairChars (q :: qs))), ?_⟩
    rw [List.map_cons, interc_cons1 _ _ _ (by simp)]
    simp [encodePairChars, encodeStringChars, List.cons_append, List.append_assoc]

theorem skipJsonWs_quote (l : List Char) : skipJsonWs ('"' :: l) = '"' :: l :=
  skipJsonWs_cons _ _ (by decide)

theorem decodeRecordChars_encode (r : CarRecord) :
    decodeRecordChars (encodeRecordChars r) = some (fromPairs r) := by
  cases r with
  | nil => decide
  | cons p ps =>
    obtain ⟨t, ht⟩ := members_head p ps
    have hbound : (p :: ps).length ≤ ('"' :: (t ++ ['\x7d'])).length + 1 := by
      have h1 := members_length_ge (p :: ps)
      rw [ht] at h1
      simp only [List.length_cons, List.length_append] at h1 ⊢
      omega
    have hpm := parseMembers_encode (p :: ps) (('"' :: (t ++ ['\x7d'])).length + 1) []
      (by simp) hbound
    rw [ht] at hpm
    simp only [List.cons_append] at hpm
    simp only [encodeRecordChars, decodeRecordChars, skipJsonWs_lbrace, ht,
      List.cons_append, skipJsonWs_quote]
    split
    · rename_i tail heq
      simp at heq
    · rename_i rest2 hne2
      simp only [hpm]
      simp [skipJsonWs]

/-! ### Records with unique keys survive the dict roundtrip -/

theorem mem_keys_recordSet (r : CarRecord) (k v k2 : String) :
    k2 ∈ (recordSet r k v).map Prod.fst ↔ k2 ∈ r.map Prod.fst ∨ k2 = k := by
  induction r with
  | nil => simp [recordSet]
  | cons p rest ih =>
    obtain ⟨k1, v1⟩ := p
    by_cases h : k1 = k
    · subst h
      simp [recordSet]
      tauto
    · simp [recordSet, h, ih]
      tauto

theorem nodup_recordSet (r : CarRecord) (k v : String)
    (h : (r.map Prod.fst).Nodup) : ((recordSet r k v).map Prod.fst).Nodup := by
  induction r with
  | nil => simp [recordSet]
  | cons p rest ih =>
    obtain ⟨k1, v1⟩ := p
    simp only [List.map_cons, List.nodup_cons] at h
    by_cases hk : k1 = k
    · subst hk
      simpa [recordSet] using h
    · simp only [recordSet, if_neg hk, List.map_cons, List.nodup_cons]
      refine ⟨?_, ih h.2⟩
      rw [mem_keys_recordSet]
      rintro (hm | hm)
      · exact h.1 hm
      · exact hk hm

theorem nodup_foldl_set :
    ∀ (ps : List (String × String)) (acc : CarRecord),
      (acc.map Prod.fst).Nodup →
      ((ps.foldl (fun r p => recordSet r p.1 p.2) acc).map Prod.fst).Nodup := by
  intro ps
  induction ps with
  | nil => intro acc h; simpa using h
  | cons p rest ih =>
    intro acc h
    simpa using ih (recordSet acc p.1 p.2) (nodup_recordSet acc p.1 p.2 h)

theorem nodup_fromPairs (ps : List (String × String)) :
    ((fromPairs ps).map Prod.fst).Nodup :=
  nodup_foldl_set ps [] (by simp)

theorem nodup_dictOfZip (header vals : List String) :
    ((dictOfZip header vals).map Prod.fst).Nodup :=
  nodup_foldl_set _ [] (by simp)

theorem recordSet_not_mem (r : CarRecord) (k v : String)
    (h : k ∉ r.map Prod.fst) : recordSet r k v = r ++ [(k, v)] := by
  induction r with
  | nil => rfl
  | cons p rest ih =>
    obtain ⟨k1, v1⟩ := p
    simp only [List.map_cons, List.mem_cons, not_or] at h
    have hne : ¬k1 = k := fun hh => h.1 hh.symm
    simp only [recordSet, if_neg hne, List.cons_append]
    rw [ih h.2]

theorem foldl_set_append :
    ∀ (ps : List (String × String)) (acc : CarRecord),
      (((acc ++ ps).map Prod.fst).Nodup) →
      ps.foldl (fun r p => recordSet r p.1 p.2) acc = acc ++ ps := by
  intro ps
  induction ps with
  | nil => intro acc h; simp
  | cons p rest ih =>
    intro acc h
    have hmem : p.1 ∉ acc.map Prod.fst := by
      intro hmem
      simp only [List.map_append, List.nodup_append, List.map_cons] at h
      exact h.2.2 hmem (by simp)
    simp only [List.foldl_cons]
    rw [recordSet_not_mem acc p.1 p.2 hmem]
    have h2 : (((acc ++ [p]) ++ rest).map Prod.fst).Nodup := by
      simpa [List.append_assoc] using h
    rw [show (p.1, p.2) = p from rfl, ih (acc ++ [p]) h2, List.append_assoc]
    rfl

theorem fromPairs_self (r : CarRecord) (h : (r.map Prod.fst).Nodup) :
    fromPairs r = r := by
  have := foldl_set_append r [] (by simpa using h)
  simpa [fromPairs] using this

/-! ### The buffer file splits back into the encoded lines -/

theorem hexDigitChar_ne_nl : ∀ d : Nat, d < 16 → hexDigitChar d ≠ '\n' := by decide

theorem nl_not_in_hex4 (n : Nat) : '\n' ∉ hex4 n := by
  intro hmem
  simp only [hex4, List.mem_cons, List.not_mem_nil, or_false] at hmem
  rcases hmem with h | h | h | h <;>
    exact hexDigitChar_ne_nl _ (Nat.mod_lt _ (by omega)) h.symm

set_option maxHeartbeats 1000000 in
theorem nl_not_in_escapeChar (c : Char) : '\n' ∉ escapeChar c := by
  simp only [escapeChar]
  split_ifs with h1 h2 h3 h4 h5 h6 h7 h8 h9 h10 <;> intro hmem
  · exact absurd hmem (by decide)
  · exact absurd hmem (by decide)
  · exact absurd hmem (by decide)
  · exact absurd hmem (by decide)
  · exact absurd hmem (by decide)
  · exact absurd hmem (by decide)
  · exact absurd hmem (by decide)
  · rcases List.mem_cons.mp hmem with h | h
    · exact absurd h (by decide)
    · rcases List.mem_cons.mp h with h | h
      · exact absurd h (by decide)
      · exact nl_not_in_hex4 _ h
  · rcases List.mem_cons.mp hmem with h | h
    · exact h3 h.symm
    · simp at h
  · rcases List.mem_cons.mp hmem with h | h
    · exact absurd h (by decide)
    · rcases List.mem_cons.mp h with h | h
      · exact absurd h (by decide)
      · exact nl_not_in_hex4 _ h
  · rcases List.mem_append.mp hmem with h | h <;>
    · rcases List.mem_cons.mp h with h | h
      · exact absurd h (by decide)
      · rcases List.mem_cons.mp h with h | h
        · exact absurd h (by decide)
        · exact nl_not_in_hex4 _ h

theorem nl_not_in_encodeString (cs : List Char) : '\n' ∉ encodeStringChars cs := by
  intro hmem
  simp only [encodeStringChars, List.mem_cons, List.mem_append] at hmem
  rcases hmem with h | h | h
  · exact absurd h (by decide)
  · rcases List.mem_flatMap.mp h with ⟨c, _, hc⟩
    exact nl_not_in_escapeChar c hc
  · exact absurd h (by decide)

theorem nl_not_in_encodePair (p : String × String) : '\n' ∉ encodePairChars p := by
  intro hmem
  simp only [encodePairChars, List.mem_append, List.mem_cons] at hmem
  rcases hmem with h | h | h | h
  · exact nl_not_in_encodeString _ h
  · exact absurd h (by decide)
  · exact absurd h (by decide)
  · exact nl_not_in_encodeString _ h

theorem nl_not_in_members : ∀ ps : List (String × String),
    '\n' ∉ List.intercalate [',', ' '] (ps.map encodePairChars) := by
  intro ps
  induction ps with
  | nil => simp [List.intercalate]
  | cons p rest ih =>
    cases rest with
    | nil =>
      rw [List.map_cons, List.map_nil, interc_one]
      exact nl_not_in_encodePair p
    | cons q qs =>
      rw [List.map_cons, interc_cons1 _ _ _ (by simp)]
      intro hmem
      rcases List.mem_append.mp hmem with h | h
      · exact nl_not_in_encodePair p h
      · rcases List.mem_append.mp h with h | h
        · exact absurd h (by decide)
        · exact ih h

theorem nl_not_in_encodeRecord (r : CarRecord) : '\n' ∉ encodeRecordChars r := by
  intro hmem
  simp only [encodeRecordChars, List.mem_cons, List.mem_append] at hmem
  rcases hmem with h | h | h
  · exact absurd h (by decide)
  · exact nl_not_in_members r h
  · exact absurd h (by decide)

theorem splitOnNl_append (xs : List Char) (h : '\n' ∉ xs) (rest : List Char) :
    splitOnNl (xs ++ '\n' :: rest) = xs :: splitOnNl rest := by
  induction xs with
  | nil => simp [splitOnNl]
  | cons c cs ih =>
    simp only [List.mem_cons, not_or] at h
    have hne : ¬c = '\n' := fun hh => h.1 hh.symm
    simp only [List.cons_append, splitOnNl, if_neg hne, List.append_eq]
    rw [ih h.2]

theorem splitOnNl_writeBuffer (rs : List CarRecord) :
    splitOnNl (writeBufferChars rs) = rs.map encodeRecordChars ++ [[]] := by
  induction rs with
  | nil => rfl
  | cons r rest ih =>
    simp only [writeBufferChars, List.map_cons, List.flatten_cons, List.append_assoc,
      List.singleton_append]
    rw [splitOnNl_append _ (nl_not_in_encodeRecord r)]
    simp only [writeBufferChars] at ih
    rw [ih]
    simp

theorem pyFileLines_writeBuffer (rs : List CarRecord) :
    pyFileLines (writeBufferChars rs) = rs.map encodeRecordChars := by
  simp only [pyFileLines, splitOnNl_writeBuffer]
  rw [if_pos (by simp), List.dropLast_concat]

theorem readBuffer_writeBuffer (rs : List CarRecord)
    (h : ∀ r ∈ rs, (r.map Prod.fst).Nodup) :
    readBuffer (writeBuffer rs) = .ok rs := by
  simp only [readBuffer, writeBuffer]
  rw [show (String.mk (writeBufferChars rs)).toList = writeBufferChars rs from rfl]
  rw [pyFileLines_writeBuffer]
  induction rs with
  | nil => rfl
  | cons r rest ih =>
    simp only [List.map_cons, List.mapM_cons]
    rw [decodeRecordChars_encode r, fromPairs_self r (h r (by simp))]
    have := ih (fun x hx => h x (by simp [hx]))
    simp only [List.map_cons] at this ⊢
    rw [this]
    rfl

/-- C3: the intermediate buffer is faithful: re-reading the buffer
written during ingestion returns exactly the appended record sequence,
with the same field contents, in the same order, with no loss,
duplication or reordering; and serialize-then-deserialize through the
buffer is the identity on each record. Records are Python dicts, so
their keys are unique, which is the hypothesis. -/
theorem buffer_roundtrip_id (rs : List CarRecord)
    (h : ∀ r ∈ rs, (r.map Prod.fst).Nodup) :
    readBuffer (writeBuffer rs) = .ok rs ∧
    ∀ r ∈ rs, decodeRecord (encodeRecord r) = some r := by
  refine ⟨readBuffer_writeBuffer rs h, fun r hr => ?_⟩
  simp only [decodeRecord, encodeRecord]
  rw [show (String.mk (encodeRecordChars r)).toList = encodeRecordChars r from rfl]
  rw [decodeRecordChars_encode r, fromPairs_self r (h r hr)]

/-- C3 (witness): a concrete two-record buffer round-trips exactly,
including escaping-sensitive values. -/
theorem buffer_roundtrip_id_witness :
    readBuffer (writeBuffer [[(("car_model"), ("a\"b\\c")), (("price"), ("9"))],
      [(("fuel"), ("gas"))]]) =
      .ok [[(("car_model"), ("a\"b\\c")), (("price"), ("9"))], [(("fuel"), ("gas"))]] :=
  (buffer_roundtrip_id _ (by decide)).1

/-! ### Every buffered record has unique keys -/

theorem decode_nodup (cs : List Char) (r : CarRecord)
    (h : decodeRecordChars cs = some r) : (r.map Prod.fst).Nodup := by
  simp only [decodeRecordChars] at h
  split at h
  · split at h
    · split at h
      · cases h
        simp
      · cases h
    · split at h
      · cases h
      · split at h
        · cases h
          exact nodup_fromPairs _
        · cases h
  · cases h

theorem csvBody_nodup (d : Nat) (header : List String) :
    ∀ (lines : List String) (counts : Counts) (rs : List CarRecord) (counts' : Counts),
      csvBody d header counts lines = .ok (rs, counts') →
      ∀ r ∈ rs, (r.map Prod.fst).Nodup := by
  intro lines
  induction lines with
  | nil =>
    intro counts rs counts' h r hr
    simp only [csvBody] at h
    cases h
    cases hr
  | cons l rest ih =>
    intro counts rs counts' h r hr
    simp only [csvBody] at h
    split at h
    · exact ih counts rs counts' h r hr
    · split at h
      · cases h
      · rename_i c1 hcc
        split at h
        · cases h
        · rename_i cars c2 hrest
          cases h
          cases hr with
          | head => exact nodup_dictOfZip _ _
          | tail _ hmem => exact ih c1 cars counts' hrest r hmem

theorem read_csv_nodup (d : Nat) (counts : Counts) (lines : List String)
    (rs : List CarRecord) (counts' : Counts)
    (h : read_csv d counts lines = .ok (rs, counts')) :
    ∀ r ∈ rs, (r.map Prod.fst).Nodup := by
  cases lines with
  | nil => cases h
  | cons hl body => exact csvBody_nodup d _ body counts rs counts' h

theorem read_json_nodup (d : Nat) :
    ∀ (lines : List String) (counts : Counts) (rs : List CarRecord) (counts' : Counts),
      read_json d counts lines = .ok (rs, counts') →
      ∀ r ∈ rs, (r.map Prod.fst).Nodup := by
  intro lines
  induction lines with
  | nil =>
    intro counts rs counts' h r hr
    simp only [read_json] at h
    cases h
    cases hr
  | cons l rest ih =>
    intro counts rs counts' h r hr
    simp only [read_json] at h
    split at h
    · exact ih counts rs counts' h r hr
    · split at h
      · cases h
      · rename_i car hdec
        split at h
        · cases h
        · rename_i c1 hcc
          split at h
          · cases h
          · rename_i cars c2 hrest
            cases h
            cases hr with
            | head => exact decode_nodup _ _ hdec
            | tail _ hmem => exact ih c1 cars counts' hrest r hmem

theorem xmlLoop_nodup (d : Nat) :
    ∀ (lines : List String) (counts : Counts) (car : CarRecord)
      (rs : List CarRecord) (counts' : Counts),
      (car.map Prod.fst).Nodup →
      xmlLoop d counts car lines = .ok (rs, counts') →
      ∀ r ∈ rs, (r.map Prod.fst).Nodup := by
  intro lines
  induction lines with
  | nil =>
    intro counts car rs counts' hcar h r hr
    simp only [xmlLoop] at h
    cases h
    cases hr
  | cons l rest ih =>
    intro counts car rs counts' hcar h r hr
    simp only [xmlLoop] at h
    split at h
    · split at h
      · cases h
      · exact ih counts _ rs counts' (nodup_recordSet _ _ _ hcar) h r hr
    · split at h
      · split at h
        · cases h
        · exact ih counts _ rs counts' (nodup_recordSet _ _ _ hcar) h r hr
      · split at h
        · split at h
          · cases h
          · exact ih counts _ rs counts' (nodup_recordSet _ _ _ hcar) h r hr
        · split at h
          · split at h
            · cases h
            · exact ih counts _ rs counts' (nodup_recordSet _ _ _ hcar) h r hr
          · split at h
            · split at h
              · cases h
              · rename_i c1 hcc
                split at h
                · cases h
                · rename_i cars c2 hrest
                  cases h
                  cases hr with
                  | head => exact hcar
                  | tail _ hmem => exact ih c1 [] cars counts' (by simp) hrest r hmem
            · exact ih counts car rs counts' hcar h r hr

theorem read_xml_nodup (d : Nat) (counts : Counts) (lines : List String)
    (rs : List CarRecord) (counts' : Counts)
    (h : read_xml d counts lines = .ok (rs, counts')) :
    ∀ r ∈ rs, (r.map Prod.fst).Nodup :=
  xmlLoop_nodup d lines counts [] rs counts' (by simp) h

theorem ingestFiles_nodup
    (reader : Nat → Counts → List String → Except PyErr (List CarRecord × Counts))
    (d : Nat)
    (hreader : ∀ (c : Counts) (f : List String) (rs : List CarRecord) (c2 : Counts),
      reader d c f = .ok (rs, c2) → ∀ r ∈ rs, (r.map Prod.fst).Nodup) :
    ∀ (fs : List (List String)) (counts : Counts) (rs : List CarRecord) (counts' : Counts),
      ingestFiles reader d counts fs = .ok (rs, counts') →
      ∀ r ∈ rs, (r.map Prod.fst).Nodup := by
  intro fs
  induction fs with
  | nil =>
    intro counts rs counts' h r hr
    simp only [ingestFiles] at h
    cases h
    cases hr
  | cons f rest ih =>
    intro counts rs counts' h r hr
    simp only [ingestFiles] at h
    split at h
    · cases h
    · rename_i rs1 c1 hf
      split at h
      · cases h
      · rename_i rs2 c2 hrest
        cases h
        rcases List.mem_append.mp hr with hmem | hmem
        · exact hreader counts f rs1 c1 hf r hmem
        · exact ih c1 rs2 counts' hrest r hmem

theorem runIngestion_nodup (delay : Nat) (csvs jsons xmls : List (List String))
    (records : List CarRecord) (counts : Counts)
    (h : runIngestion delay csvs jsons xmls = .ok (records, counts)) :
    ∀ r ∈ records, (r.map Prod.fst).Nodup := by
  intro r hr
  simp only [runIngestion] at h
  split at h
  · cases h
  · rename_i r1 c1 h1
    split at h
    · cases h
    · rename_i r2 c2 h2
      split at h
      · cases h
      · rename_i r3 c3 h3
        cases h
        rcases List.mem_append.mp hr with hmem | hmem3
        · rcases List.mem_append.mp hmem with hmem1 | hmem2
          · exact ingestFiles_nodup read_csv delay
              (fun c f rs c2 hh => read_csv_nodup delay c f rs c2 hh) csvs [] r1 c1 h1 r hmem1
          · exact ingestFiles_nodup read_json delay
              (fun c f rs c2 hh => read_json_nodup delay f c rs c2 hh) jsons c1 r2 c2 h2 r hmem2
        · exact ingestFiles_nodup read_xml delay
            (fun c f rs c2 hh => read_xml_nodup delay c f rs c2 hh) xmls c2 r3 counts h3 r hmem3

/-! ### The filter pass keeps exactly the records meeting the threshold -/

theorem countsIndex_ok_getD (c : Counts) (k : String) (v : Nat)
    (h : countsIndex c k = .ok v) : countsGetD c k 0 = v := by
  simp only [countsIndex, countsGetD] at h ⊢
  cases hf : c.find? (fun p => p.1 == k) <;> rw [hf] at h
  · cases h
  · cases h
    rfl

theorem writeCars_ok_filter (delay : Nat) (counts : Counts) :
    ∀ (rs : List CarRecord) (lines : List String),
      writeCars delay counts rs = .ok lines →
      lines = (rs.filter (retainedB counts)).map fmtLine := by
  intro rs
  induction rs with
  | nil =>
    intro lines h
    simp only [writeCars] at h
    cases h
    simp
  | cons car rest ih =>
    intro lines h
    simp only [writeCars] at h
    split at h
    · cases h
    · rename_i m hm
      split at h
      · cases h
      · rename_i cnt hcnt
        have hfind := recordIndex_ok_find car _ _ hm
        have hgetd := countsIndex_ok_getD counts m cnt hcnt
        split at h
        · rename_i hth
          split at h
          · cases h
          · rename_i line car2 hfmt
            split at h
            · cases h
            · rename_i ls hrest
              cases h
              have hret : retainedB counts car = true := by
                simp only [retainedB, hfind, hgetd]
                exact decide_eq_true hth
              rw [List.filter_cons_of_pos hret, List.map_cons]
              rw [show fmtLine car = line by simp [fmtLine, hfmt]]
              rw [ih ls hrest]
        · rename_i hth
          have hret : retainedB counts car = false := by
            simp only [retainedB, hfind, hgetd]
            exact decide_eq_false hth
          rw [List.filter_cons_of_neg (by simp [hret]), ih lines h]

/-- C1: for every completed run, the final output is the fixed header
line followed by exactly the formatted images of the buffered records
whose model count (after full ingestion) reaches the threshold 3, the
hard-coded default; the retained lines keep the original ingestion
order, a record with count exactly 3 is retained and one with count 2
is dropped, and every buffered record has a model whose retention is
equivalent to its count reaching the threshold. -/
theorem pipeline_output_iff_threshold (delay : Nat)
    (csvs jsons xmls : List (List String)) (records : List CarRecord) (counts : Counts)
    (out : List String)
    (hing : runIngestion delay csvs jsons xmls = .ok (records, counts))
    (hrun : runPipeline delay csvs jsons xmls = .ok out) :
    out = headerLine :: ((records.filter (retainedB counts)).map fmtLine) ∧
    ∀ r ∈ records, ∃ m, recordFind r ("car_model") = some m ∧
      (retainedB counts r = true ↔ threshold ≤ countsGetD counts m 0) := by
  constructor
  · simp only [runPipeline] at hrun
    split at hrun
    · cases hrun
    · rename_i recs2 counts2 heq
      rw [hing] at heq
      cases heq
      have hnodup := runIngestion_nodup delay csvs jsons xmls records counts hing
      have hrb := readBuffer_writeBuffer records hnodup
      split at hrun
      · cases hrun
      · rename_i recs3 heq3
        rw [hrb] at heq3
        cases heq3
        split at hrun
        · cases hrun
        · rename_i outl houtl
          cases hrun
          rw [writeCars_ok_filter delay counts records outl houtl]
  · intro r hr
    obtain ⟨m, hm, _, _⟩ := runIngestion_models delay csvs jsons xmls records counts hing r hr
    refine ⟨m, hm, ?_⟩
    simp [retainedB, hm]

/-- C1 (witness): a concrete mixed run retains the three civic records
(count exactly the threshold 3) in ingestion order and drops the focus
record (count 2 is below the threshold, count 1 here). -/
theorem pipeline_output_iff_threshold_witness :
    ([("car_model,year_of_manufacture,price,fuel"), ("Civic,2010,9.00,gas"),
      ("Civic,2011,12.50,gas"), ("Civic,,100.00,")] : List String) =
      headerLine ::
        ((([[(("car_model"), ("civic")), (("year_of_manufacture"), ("2010")),
             (("price"), ("9")), (("fuel"), ("gas"))],
           [(("car_model"), ("civic")), (("year_of_manufacture"), ("2011")),
             (("price"), ("12.5")), (("fuel"), ("gas"))],
           [(("car_model"), ("focus")), (("year_of_manufacture"), ("2012")),
             (("price"), ("7")), (("fuel"), ("gas"))],
           [(("car_model"), ("civic")), (("price"), ("100.004"))]] :
             List CarRecord).filter
          (retainedB [(("civic"), 3), (("focus"), 1)])).map fmtLine) :=
  (pipeline_output_iff_threshold 0
    [[("car_model,year_of_manufacture,price,fuel"), ("civic,2010,9,gas"),
      ("civic,2011,12.5,gas"), ("focus,2012,7,gas")]]
    [[("\x7b\"car_model\": \"civic\", \"price\": \"100.004\"\x7d")]] []
    _ _ _ (by decide) (by decide)).1
